import Mathlib

/-!
# The image-bundle loader of `lib/docker/graph/load.go`

A shallow embedding of `TagStore.Load` and `TagStore.recursiveLoad`.

The store is explicit state (`TagStore`): the graph of registered images, the
single-flight pool and the tag index.  Every call returns, next to its result,
the list of calls it made on its collaborators (`Event`), so that statements of
the form "no `Register` call is issued" are statements about that list.

The collaborators whose code is not part of `load.go` (the graph store, the pool,
the tag setter, the extractor, the decoder and the validator) are modelled from
their contract in the specification; where that contract leaves the outcome open
(whether a call fails) the outcome is a field of `Env`, and every theorem holds
for all values of it.

The model is sequential: it follows one `Load` (one goroutine).  Keys that other
workers hold in the pool are part of the initial `pullingPool`; a wait on such a
key ends when its holder has released it, so the key is gone from the pool when
the wait returns; what the other workers do to the graph is not part of the
state.  A wait on a key that the call stack itself holds never ends.

The staging area is the file tree below `<staging>/repo`: its directories are
listed under their cleaned path below `repo` (`b`, `b/a`), and an address is
looked up the way `filepath.Join(tmpImageDir, "repo", address, ...)` resolves it:
`./c` is the directory `c`, `b/a` the directory `a` inside `b`, and an address
with enough `..` leads to a directory outside `repo`, listed under its cleaned
path with a leading `/`.
-/

namespace Graph

/-- A Go `error` value. -/
structure Error where
  msg : String
deriving DecidableEq, Repr

/-- The part of `image.Image` that `load.go` reads: `img.ID` and `img.Parent`
(empty for a root). -/
structure Image where
  ID : String
  Parent : String
deriving DecidableEq, Repr

/-- The part of `TagStore` that `load.go` touches: `graph` holds the registered
images, `pullingPool` the keys currently admitted to the single-flight pool,
`Repositories` the tag index (repo, tag) ↦ ID. -/
structure TagStore where
  graph : List Image
  pullingPool : List String
  Repositories : List ((String × String) × String)
deriving DecidableEq, Repr

/-- One call made on a collaborator, in the order the calls are made. -/
inductive Event
  | untar (excludes : List String)
  | readJSON (address : String)
  | openLayer (address : String)
  | poolAdd (key : String) (granted : Bool)
  | wait (key : String)
  | poolRemove (key : String)
  | recurse (address : String)
  | register (img : Image) (err : Option Error)
  | setLoad (repoName tag address : String) (force : Bool) (err : Option Error)
deriving DecidableEq, Repr

/-- How a call ends: `ok` is `return nil`, `err e` is `return err`, and `blocked`
is a call that never returns because it waits (`<-c`) on the channel of a key that
its own call stack holds, a channel only its own deferred `poolRemove` would
close. -/
inductive Outcome
  | ok
  | err (e : Error)
  | blocked
deriving DecidableEq, Repr

/-- An entry of the file tree that `recursiveLoad` reads, with the two files it
reads below it: `name` is the cleaned path of the entry below `<staging>/repo`
(a plain file name for a top-level entry, `b/a` for the entry `a` inside `b`) or,
for a directory outside `repo` that an address with enough `..` leads to, its
cleaned path from the root, with the leading `/`; `json` is what
`ioutil.ReadFile(.../json)` returns and `layer` what `os.Open(.../layer.tar)`
returns. -/
structure DirEntry where
  name : String
  isDir : Bool
  json : Except Error String
  layer : Except Error String

/-- The file `<staging>/repo/repositories`: absent, not openable for another
reason, not decodable, or decoded into the map repo ↦ (tag ↦ ID), listed in the
order the two `range` loops visit it. -/
inductive ReposFile
  | notExist
  | openErr (e : Error)
  | badJSON (e : Error)
  | index (repositories : List (String × List (String × String)))

/-- The file tree after extraction: the entries below `repo`, at any depth, the
directories outside `repo` that an address can reach, and the `repositories`
file. -/
structure Staging where
  entries : List DirEntry
  repositories : ReposFile

/-- The input stream: a tar ball that either cannot be extracted (`corrupt`) or
holds the image directories and the optional `repositories` file; `content` is
the file tree as it is when all of the tar ball is extracted. -/
structure Archive where
  corrupt : Option Error
  content : Staging

/-- The outcomes the collaborators' contracts leave open.  `tmpImageDir`: the
path `ioutil.TempDir` returns.  `tempDirErr`,
`mkdirErr`, `mapErr`, `readDirErr`: whether `ioutil.TempDir`, `os.Mkdir`,
`graph.Map` and `ioutil.ReadDir` fail.  `NewImgJSON` and `ValidateID` are
`image.NewImgJSON` and `image.ValidateID`.  `registerErr`: whether
`graph.Register` fails in a given store.  `setLoadErr`: whether `SetLoad` fails
for given arguments and a given graph.  `poolAddErr`: whether `poolAdd` refuses a
free key with an error and no channel. -/
structure Env where
  tmpImageDir : String
  tempDirErr : Option Error
  mkdirErr : Option Error
  mapErr : Option Error
  readDirErr : Option Error
  NewImgJSON : String → Except Error Image
  ValidateID : String → Option Error
  registerErr : TagStore → Image → Option Error
  poolAddErr : String → Option Error
  setLoadErr : List Image → String → String → String → Option Error

/-! ## Collaborators -/

/-- Modelled from the spec: `graph.Exists(ID) → bool` of the graph store, "a
mapping from ID to image record, plus the ability to test existence". -/
def Exists (s : TagStore) (id : String) : Bool :=
  s.graph.any (fun img => img.ID == id)

/-- Modelled from the spec: `LookupImage(address) → record | error`, "error
signals absence"; `true` is a successful lookup ("the graph already knows
`address`"). -/
def LookupImage (s : TagStore) (address : String) : Bool :=
  Exists s address

/-- Modelled from the spec: `graph.Map() → {ID → record}`, "enumerate residents".
The result is a map: one entry per resident ID. -/
def Map (s : TagStore) : List (String × Image) :=
  (s.graph.map (fun img => img.ID)).dedup.filterMap
    (fun id => (s.graph.find? (fun img => img.ID == id)).map (fun img => (id, img)))

/-- The graph with the record of `img` stored under `img.ID`. -/
def insertImage (g : List Image) (img : Image) : List Image :=
  img :: g.filter (fun o => o.ID != img.ID)

/-- Modelled from the spec: `graph.Register(record, layer-stream) → error`.  "A
successful `Register` implies the image is visible to `Exists` and `LookupImage`
thereafter"; the graph maps an ID to one record. -/
def Register (env : Env) (s : TagStore) (img : Image) : Option Error × TagStore :=
  match env.registerErr s img with
  | some e => (some e, s)
  | none => (none, { s with graph := insertImage s.graph img })

/-- The three results of `poolAdd`: `(c, nil)`, `(c, err)` with `c != nil`, and
`(nil, err)`. -/
inductive Admission
  | granted
  | inFlight (e : Error)
  | refused (e : Error)
deriving DecidableEq, Repr

/-- Modelled from the spec: `poolAdd(op, key) → (wait-channel | nil, error)`,
"for a given (op, key) it admits at most one in-flight worker and returns a
wait-channel to late arrivals"; "a non-nil channel on error means another worker
holds the key". -/
def poolAdd (env : Env) (s : TagStore) (kind key : String) : Admission × TagStore :=
  if key ∈ s.pullingPool then
    (.inFlight ⟨kind ++ " " ++ key ++ " is already in progress"⟩, s)
  else
    match env.poolAddErr key with
    | some e => (.refused e, s)
    | none => (.granted, { s with pullingPool := key :: s.pullingPool })

/-- Modelled from the spec: `poolRemove(op, key)`, "on function exit, release the
key". -/
def poolRemove (s : TagStore) (_kind key : String) : TagStore :=
  { s with pullingPool := s.pullingPool.filter (fun k => k != key) }

/-- The store with (repo, tag) bound to `imageName`, any earlier binding of that
(repo, tag) overwritten. -/
def bindTag (s : TagStore) (repoName tag imageName : String) : TagStore :=
  { s with Repositories :=
      ((repoName, tag), imageName) ::
        s.Repositories.filter (fun b => b.1 != (repoName, tag)) }

/-- Modelled from the spec: `SetLoad(repo, tag, ID, force, progress-sink) → error`;
"the `force` flag instructs the tag binder to overwrite any pre-existing
binding".  Without `force` an existing binding is kept and reported. -/
def SetLoad (env : Env) (s : TagStore) (repoName tag imageName : String) (force : Bool) :
    Option Error × TagStore :=
  match env.setLoadErr s.graph repoName tag imageName with
  | some e => (some e, s)
  | none =>
    if !force && (s.Repositories.lookup (repoName, tag)).isSome then
      (some ⟨"Conflict: Tag " ++ tag ++ " is already set"⟩, s)
    else
      (none, bindTag s repoName tag imageName)

/-- What the tag index resolves (repo, tag) to. -/
def resolve (s : TagStore) (repoName tag : String) : Option String :=
  s.Repositories.lookup (repoName, tag)

/-! ## Paths -/

/-- The components of a slash-separated path; `cur` holds, reversed, the
characters of the component being read. -/
def splitPath : List Char → List Char → List String
  | [], cur => [String.mk cur.reverse]
  | c :: cs, cur =>
    if c = '/' then String.mk cur.reverse :: splitPath cs [] else splitPath cs (c :: cur)

/-- The components of a slash-separated path. -/
def components (p : String) : List String := splitPath p.toList []

/-- Whether a path is rooted: it starts with a slash. -/
def isRooted (p : String) : Bool :=
  match p.toList with
  | c :: _ => c = '/'
  | [] => false

/-- One step of `filepath.Clean`: an empty component and `.` are dropped; `..`
removes the component before it, is dropped at the root of a rooted path, and is
kept where a path that is not rooted has nothing left to remove. -/
def cleanStep (rooted : Bool) (stack : List String) (c : String) : List String :=
  if c = "" ∨ c = "." then stack
  else if c = ".." then
    match stack.getLast? with
    | none => if rooted then [] else [".."]
    | some top => if top = ".." then stack ++ [".."] else stack.dropLast
  else stack ++ [c]

/-- The components of the cleaned path with the components `cs`. -/
def cleanPath (rooted : Bool) (cs : List String) : List String :=
  cs.foldl (cleanStep rooted) []

/-- Removes the leading components `base` from a path, if it starts with them. -/
def dropBase : List String → List String → Option (List String)
  | [], ys => some ys
  | _ :: _, [] => none
  | x :: xs, y :: ys => if x = y then dropBase xs ys else none

/-- The directory that `filepath.Join(tmpImageDir, "repo", address)` denotes: its
cleaned path below `repo`; when the address leads out of `repo`, its cleaned
path from the root (with a leading `/`) or, where `tmpImageDir` is not rooted,
from the working directory (with a leading `./`). -/
def pathKey (env : Env) (address : String) : String :=
  match dropBase (cleanPath (isRooted env.tmpImageDir) (components env.tmpImageDir ++ ["repo"]))
      (cleanPath (isRooted env.tmpImageDir)
        (components env.tmpImageDir ++ ["repo"] ++ components address)) with
  | some rest => "/".intercalate rest
  | none =>
    (if isRooted env.tmpImageDir then "/" else "./") ++ "/".intercalate
      (cleanPath (isRooted env.tmpImageDir)
        (components env.tmpImageDir ++ ["repo"] ++ components address))

/-- Whether a string is a plain file name: not empty, not `.` or `..`, and
without a path separator. -/
def isPlain (p : String) : Bool :=
  p != "" && p != "." && p != ".." && !(p.toList.contains '/')

/-- Whether the name of an entry is the path of a directory outside `repo`: it
starts with `/` or with `./`, which no cleaned path below `repo` does. -/
def isOutside (name : String) : Bool :=
  match name.toList with
  | '/' :: _ => true
  | '.' :: '/' :: _ => true
  | _ => false

/-- Whether an address is a clean path below `repo`: `filepath.Join` leaves it as
it is and it does not lead out of `repo`. -/
def isClean (env : Env) (address : String) : Bool :=
  pathKey env address == address && !(isOutside address)

/-- Whether a path below `repo` matches an exclude pattern: it is the pattern, or
it lies below the directory the pattern names. -/
def matchesPattern (pattern name : String) : Bool :=
  name == pattern || (pattern.toList ++ ['/']).isPrefixOf name.toList

/-- The tree after extraction: the directories below `repo` that match an
exclude pattern are not unpacked; what lies outside `repo` is as it was. -/
def extracted (inTar : Archive) (excludes : List String) : Staging :=
  { entries := inTar.content.entries.filter
      (fun d => isOutside d.name || !(excludes.any (fun p => matchesPattern p d.name))),
    repositories := inTar.content.repositories }

/-- Modelled from the spec: `Extract(stream, destination, options{ExcludePatterns})`,
"unpacks the stream into `destination`; any path matching an exclude pattern is
skipped"; the patterns are the resident IDs, which name directories of `repo`,
"so their tarball subtrees are skipped". -/
def Untar (inTar : Archive) (excludes : List String) : Except Error Staging :=
  match inTar.corrupt with
  | some e => .error e
  | none => .ok (extracted inTar excludes)

/-- The result of `ioutil.ReadDir(repoDir)`: the top-level entries of `repo`,
those with a plain file name. -/
def topLevel (fs : Staging) : List DirEntry :=
  fs.entries.filter (fun d => isPlain d.name)

/-- The staged directory `filepath.Join(tmpImageDir, "repo", address)`, if there
is one. -/
def Staging.dir (fs : Staging) (env : Env) (address : String) : Option DirEntry :=
  fs.entries.find? (fun d => d.isDir && d.name == pathKey env address)

/-- The call `ioutil.ReadFile(filepath.Join(tmpImageDir, "repo", address, "json"))`. -/
def ReadFile (env : Env) (fs : Staging) (address : String) : Except Error String :=
  match fs.dir env address with
  | some d => d.json
  | none => .error ⟨"open repo/" ++ address ++ "/json: no such file or directory"⟩

/-- The call `os.Open(filepath.Join(tmpImageDir, "repo", address, "layer.tar"))`. -/
def Open (env : Env) (fs : Staging) (address : String) : Except Error String :=
  match fs.dir env address with
  | some d => d.layer
  | none => .error ⟨"open repo/" ++ address ++ "/layer.tar: no such file or directory"⟩

/-! ## `recursiveLoad` -/

/-- The pool key of an image, `"layer:"+img.ID`. -/
def layerKey (id : String) : String := "layer:" ++ id

/-- Lines 88-107 of `recursiveLoad`: read `json`, open `layer.tar`, decode the
metadata and validate `img.ID`; the first failure is returned. -/
def readStaged (env : Env) (fs : Staging) (address : String) :
    Except Error Image × List Event :=
  match ReadFile env fs address with
  | .error e => (.error e, [.readJSON address])
  | .ok imageJson =>
    match Open env fs address with
    | .error e => (.error e, [.readJSON address, .openLayer address])
    | .ok _layer =>
      match env.NewImgJSON imageJson with
      | .error e => (.error e, [.readJSON address, .openLayer address])
      | .ok img =>
        match env.ValidateID img.ID with
        | some e => (.error e, [.readJSON address, .openLayer address])
        | none => (.ok img, [.readJSON address, .openLayer address])

/-- Lines 129-131 of `recursiveLoad` followed by the deferred `poolRemove` of line
120: register the image, then release the key. -/
def registerAndRelease (env : Env) (img : Image) (s : TagStore) :
    Outcome × TagStore × List Event :=
  match Register env s img with
  | (some e, s1) =>
    (.err e, poolRemove s1 "pull" (layerKey img.ID),
      [.register img (some e), .poolRemove (layerKey img.ID)])
  | (none, s1) =>
    (.ok, poolRemove s1 "pull" (layerKey img.ID),
      [.register img none, .poolRemove (layerKey img.ID)])

/-- The method `(s *TagStore) recursiveLoad(address, tmpImageDir string) error`.
`held` lists the keys admitted by the enclosing calls of the same call stack,
whose deferred `poolRemove` is still pending.  The first argument bounds the
depth of the recursion; `none` means the bound was too small. -/
def recursiveLoad (env : Env) (fs : Staging) :
    Nat → List String → String → TagStore → Option (Outcome × TagStore × List Event)
  | 0, _, _, _ => none
  | fuel + 1, held, address, s =>
    -- line 85: a successful lookup skips the body
    if LookupImage s address then some (.ok, s, [])
    else
      -- lines 88-107
      match readStaged env fs address with
      | (.error e, reads) => some (.err e, s, reads)
      | (.ok img, reads) =>
        -- line 110
        match poolAdd env s "pull" (layerKey img.ID) with
        | (.inFlight _, s1) =>
          -- lines 111-115: `<-c`, then `return nil`; the wait ends when the holder's
          -- `poolRemove` has closed the channel and deleted the key
          if layerKey img.ID ∈ held then
            some (.blocked, s1,
              reads ++ [.poolAdd (layerKey img.ID) false, .wait (layerKey img.ID)])
          else
            some (.ok, poolRemove s1 "pull" (layerKey img.ID),
              reads ++ [.poolAdd (layerKey img.ID) false, .wait (layerKey img.ID)])
        | (.refused e, s1) =>
          -- line 117
          some (.err e, s1, reads ++ [.poolAdd (layerKey img.ID) false])
        | (.granted, s1) =>
          -- line 120 defers `poolRemove`; lines 122-128
          if img.Parent != "" && !(Exists s1 img.Parent) then
            match recursiveLoad env fs fuel (layerKey img.ID :: held) img.Parent s1 with
            | none => none
            | some (.ok, s2, evs) =>
              match registerAndRelease env img s2 with
              | (r, s3, evs3) =>
                some (r, s3, reads ++ [.poolAdd (layerKey img.ID) true,
                  .recurse img.Parent] ++ evs ++ evs3)
            | some (.err e, s2, evs) =>
              -- line 125, then the deferred `poolRemove`
              some (.err e, poolRemove s2 "pull" (layerKey img.ID),
                reads ++ [.poolAdd (layerKey img.ID) true, .recurse img.Parent] ++ evs ++
                  [.poolRemove (layerKey img.ID)])
            | some (.blocked, s2, evs) =>
              -- the nested call never returns, so neither does this one
              some (.blocked, s2,
                reads ++ [.poolAdd (layerKey img.ID) true, .recurse img.Parent] ++ evs)
          else
            match registerAndRelease env img s1 with
            | (r, s3, evs3) =>
              some (r, s3, reads ++ [.poolAdd (layerKey img.ID) true] ++ evs3)

/-! ## `Load` -/

/-- Lines 51-57 of `Load`: call `recursiveLoad` on every directory entry of the
listing, in order, and stop at the first error. -/
def loadDirs (env : Env) (fs : Staging) (fuel : Nat) :
    List DirEntry → TagStore → Option (Outcome × TagStore × List Event)
  | [], s => some (.ok, s, [])
  | d :: ds, s =>
    if d.isDir then
      match recursiveLoad env fs fuel [] d.name s with
      | none => none
      | some (.ok, s1, evs) =>
        match loadDirs env fs fuel ds s1 with
        | none => none
        | some (r, s2, evs2) => some (r, s2, evs ++ evs2)
      | some (r, s1, evs) => some (r, s1, evs)
    else loadDirs env fs fuel ds s

/-- Lines 74-78 of `Load`: the inner loop over the tags of one repository. -/
def setTags (env : Env) (imageName : String) :
    List (String × String) → TagStore → Outcome × TagStore × List Event
  | [], s => (.ok, s, [])
  | (tag, address) :: rest, s =>
    match SetLoad env s imageName tag address true with
    | (some e, s1) => (.err e, s1, [.setLoad imageName tag address true (some e)])
    | (none, s1) =>
      match setTags env imageName rest s1 with
      | (r, s2, evs) => (r, s2, .setLoad imageName tag address true none :: evs)

/-- Lines 73-79 of `Load`: the outer loop over the repositories. -/
def setRepositories (env : Env) :
    List (String × List (String × String)) → TagStore → Outcome × TagStore × List Event
  | [], s => (.ok, s, [])
  | (imageName, tagMap) :: rest, s =>
    match setTags env imageName tagMap s with
    | (.ok, s1, evs) =>
      match setRepositories env rest s1 with
      | (r, s2, evs2) => (r, s2, evs ++ evs2)
    | (r, s1, evs) => (r, s1, evs)

/-- Lines 59-81 of `Load`: open and decode `repositories`, then bind the tags. -/
def loadRepositories (env : Env) (fs : Staging) (s : TagStore) :
    Outcome × TagStore × List Event :=
  match fs.repositories with
  | .notExist => (.ok, s, [])
  | .openErr e => (.err e, s, [])
  | .badJSON e => (.err e, s, [])
  | .index repositories => setRepositories env repositories s

/-- The exclude patterns of lines 36-41: the keys of `graph.Map()`. -/
def excludesOf (s : TagStore) : List String :=
  (Map s).map Prod.fst

/-- The method `(s *TagStore) Load(inTar io.ReadCloser, outStream io.Writer) error`.
The recursion bound handed to `recursiveLoad` is the number of staged entries
plus one. -/
def Load (env : Env) (inTar : Archive) (s : TagStore) :
    Option (Outcome × TagStore × List Event) :=
  match env.tempDirErr with
  | some e => some (.err e, s, [])
  | none =>
    match env.mkdirErr with
    | some e => some (.err e, s, [])
    | none =>
      match env.mapErr with
      | some e => some (.err e, s, [])
      | none =>
        match Untar inTar (excludesOf s) with
        | .error e => some (.err e, s, [.untar (excludesOf s)])
        | .ok fs =>
          match env.readDirErr with
          | some e => some (.err e, s, [.untar (excludesOf s)])
          | none =>
            match loadDirs env fs (fs.entries.length + 1) (topLevel fs) s with
            | none => none
            | some (.ok, s1, evs) =>
              match loadRepositories env fs s1 with
              | (r, s2, evs2) => some (r, s2, .untar (excludesOf s) :: (evs ++ evs2))
            | some (r, s1, evs) => some (r, s1, .untar (excludesOf s) :: evs)

/-! ## Observations on a list of calls -/

/-- The image records handed to `graph.Register`, in call order. -/
def registerCalls (evs : List Event) : List Image :=
  evs.filterMap (fun ev => match ev with
    | .register img _ => some img
    | _ => none)

/-- The arguments of one call `SetLoad(repoName, tag, address, force, outStream)`. -/
structure SetLoadArgs where
  repoName : String
  tag : String
  address : String
  force : Bool
deriving DecidableEq, Repr

/-- The arguments of the `SetLoad` calls, in call order. -/
def setLoadCalls (evs : List Event) : List SetLoadArgs :=
  evs.filterMap (fun ev => match ev with
    | .setLoad r t a f _ => some ⟨r, t, a, f⟩
    | _ => none)

/-- The exclude sets handed to the extractor. -/
def untarCalls (evs : List Event) : List (List String) :=
  evs.filterMap (fun ev => match ev with
    | .untar xs => some xs
    | _ => none)

/-- The keys of the channels waited on (`<-c`), in call order. -/
def waitedKeys (evs : List Event) : List String :=
  evs.filterMap (fun ev => match ev with
    | .wait k => some k
    | _ => none)

/-- The pool `pool` without the keys waited on in `evs`: a wait returns when the
holder of the key has released it. -/
def unwaited (evs : List Event) (pool : List String) : List String :=
  pool.filter (fun k => !((waitedKeys evs).contains k))

/-- The graph after the calls `evs`, started in graph `g`: every `Register` call
that succeeded stored its record. -/
def graphAfter (g : List Image) : List Event → List Image
  | [] => g
  | .register img none :: evs => graphAfter (insertImage g img) evs
  | _ :: evs => graphAfter g evs

/-- Whether every `Register` call of `evs`, started in graph `g`, is made for a
root image or at a moment when the image's parent is in the graph. -/
def parentsFirst (g : List Image) : List Event → Bool
  | [] => true
  | .register img none :: evs =>
    (img.Parent == "" || g.any (fun o => o.ID == img.Parent)) &&
      parentsFirst (insertImage g img) evs
  | .register img (some _) :: evs =>
    (img.Parent == "" || g.any (fun o => o.ID == img.Parent)) && parentsFirst g evs
  | _ :: evs => parentsFirst g evs

/-- Whether every resident image with a non-empty `Parent` has that parent
resident. -/
def parentsResident (s : TagStore) : Bool :=
  s.graph.all (fun img => img.Parent == "" || Exists s img.Parent)

/-- The ancestors of a resident image: `Ancestor g a x` says that `a` is reached
from `x` by following non-empty `Parent` fields of records in `g`. -/
inductive Ancestor (g : List Image) : String → String → Prop
  | parent {img : Image} (hmem : img ∈ g) (hne : img.Parent ≠ "") :
      Ancestor g img.Parent img.ID
  | step {a b c : String} (hab : Ancestor g a b) (hbc : Ancestor g b c) : Ancestor g a c

/-- The keys the call stack holds after the calls `evs`, when it held `held`
before: a granted `poolAdd` pushes its key, a `poolRemove` drops it. -/
def heldAfter (held : List String) : List Event → List String
  | [] => held
  | .poolAdd k true :: evs => heldAfter (k :: held) evs
  | .poolRemove k :: evs => heldAfter (held.erase k) evs
  | _ :: evs => heldAfter held evs

/-- Whether the pool calls of `evs` are well nested on top of the keys `held`:
every granted `poolAdd` is for a key the call stack does not hold, and every
`poolRemove` is for the key admitted last and not yet released. -/
def disciplined (held : List String) : List Event → Bool
  | [] => true
  | .poolAdd k true :: evs => !(held.contains k) && disciplined (k :: held) evs
  | .poolRemove k :: evs => (held.head? == some k) && disciplined (held.erase k) evs
  | _ :: evs => disciplined held evs

/-- Whether some `<-c` of `evs` waits on a key that the call stack itself holds at
that moment. -/
def selfWaits (held : List String) : List Event → Bool
  | [] => false
  | .poolAdd k true :: evs => selfWaits (k :: held) evs
  | .poolRemove k :: evs => selfWaits (held.erase k) evs
  | .wait k :: evs => held.contains k || selfWaits held evs
  | _ :: evs => selfWaits held evs

/-- The metadata of a staged entry: the record its `json` file decodes to, when
the entry is a directory whose `json` is readable and decodable. -/
def DirEntry.metadata (env : Env) (d : DirEntry) : Option Image :=
  if d.isDir then
    match d.json with
    | .ok b =>
      match env.NewImgJSON b with
      | .ok img => some img
      | .error _ => none
    | .error _ => none
  else none

/-- The metadata ID of a staged entry. -/
def DirEntry.metadataID (env : Env) (d : DirEntry) : Option String :=
  (d.metadata env).map (fun img => img.ID)

/-- The metadata IDs staged. -/
def stagedIDs (env : Env) (fs : Staging) : List String :=
  fs.entries.filterMap (fun d => d.metadataID env)

/-- The distinct staged metadata IDs whose key is not in the pool. -/
def freeIDs (env : Env) (fs : Staging) (pool : List String) : List String :=
  (stagedIDs env fs).dedup.filter (fun i => !(pool.contains (layerKey i)))

/-- Whether every staged directory, at any depth below `repo`, is named by the
ID its metadata carries ("the directory name IS the image identifier"). -/
def namesAreIDs (env : Env) (fs : Staging) : Bool :=
  fs.entries.all (fun d => isOutside d.name ||
    match d.metadataID env with
    | some i => i == d.name
    | none => true)

/-- Whether every `Parent` in the metadata is empty or a clean path below `repo`
(as an ID is). -/
def parentsAreClean (env : Env) (fs : Staging) : Bool :=
  fs.entries.all (fun d => match d.metadata env with
    | some img => img.Parent == "" || isClean env img.Parent
    | none => true)

/-- The bindings `((repo, tag), ID)` of a repositories index, in visiting order. -/
def bindings : List (String × List (String × String)) → List ((String × String) × String)
  | [] => []
  | (repo, tagMap) :: rest => tagMap.map (fun p => ((repo, p.1), p.2)) ++ bindings rest

/-- The value the last binding of key `k` in `xs` gives it, if `xs` binds `k`. -/
def lastBinding (xs : List ((String × String) × String)) (k : String × String) : Option String :=
  match xs with
  | [] => none
  | (k1, v) :: rest =>
    match lastBinding rest k with
    | some w => some w
    | none => if k = k1 then some v else none

/-- Whether a decoded index is a Go map of Go maps: no repository name and,
within a repository, no tag name occurs twice. -/
def isMap (idx : List (String × List (String × String))) : Bool :=
  decide (idx.map Prod.fst).Nodup && idx.all (fun p => decide (p.2.map Prod.fst).Nodup)

/-! ## The runs of `recursiveLoad` -/

/-- The store after a granted `poolAdd` on `key`. -/
def grantKey (s : TagStore) (key : String) : TagStore :=
  { s with pullingPool := key :: s.pullingPool }

/-- The paths through `recursiveLoad`, one constructor per way the body can be
left: `Runs env fs held address s r t evs` says that the call on `address` in
store `s` ends as `r` in store `t` after the calls `evs`. -/
inductive Runs (env : Env) (fs : Staging) :
    List String → String → TagStore → Outcome → TagStore → List Event → Prop
  | known {held address s} (hl : LookupImage s address = true) :
      Runs env fs held address s .ok s []
  | unreadable {held address s e reads} (hl : LookupImage s address = false)
      (hr : readStaged env fs address = (.error e, reads)) :
      Runs env fs held address s (.err e) s reads
  | selfWait {held address s img reads} (hl : LookupImage s address = false)
      (hr : readStaged env fs address = (.ok img, reads))
      (hp : layerKey img.ID ∈ s.pullingPool) (hh : layerKey img.ID ∈ held) :
      Runs env fs held address s .blocked s
        (reads ++ [.poolAdd (layerKey img.ID) false, .wait (layerKey img.ID)])
  | waited {held address s img reads} (hl : LookupImage s address = false)
      (hr : readStaged env fs address = (.ok img, reads))
      (hp : layerKey img.ID ∈ s.pullingPool) (hh : layerKey img.ID ∉ held) :
      Runs env fs held address s .ok (poolRemove s "pull" (layerKey img.ID))
        (reads ++ [.poolAdd (layerKey img.ID) false, .wait (layerKey img.ID)])
  | refused {held address s img reads e} (hl : LookupImage s address = false)
      (hr : readStaged env fs address = (.ok img, reads))
      (hp : layerKey img.ID ∉ s.pullingPool) (he : env.poolAddErr (layerKey img.ID) = some e) :
      Runs env fs held address s (.err e) s (reads ++ [.poolAdd (layerKey img.ID) false])
  | leaf {held address s img reads r s3 evs3} (hl : LookupImage s address = false)
      (hr : readStaged env fs address = (.ok img, reads))
      (hp : layerKey img.ID ∉ s.pullingPool) (he : env.poolAddErr (layerKey img.ID) = none)
      (hpar : (img.Parent != "" && !(Exists s img.Parent)) = false)
      (hreg : registerAndRelease env img (grantKey s (layerKey img.ID)) = (r, s3, evs3)) :
      Runs env fs held address s r s3 (reads ++ [.poolAdd (layerKey img.ID) true] ++ evs3)
  | parentOk {held address s img reads s2 evs r s3 evs3} (hl : LookupImage s address = false)
      (hr : readStaged env fs address = (.ok img, reads))
      (hp : layerKey img.ID ∉ s.pullingPool) (he : env.poolAddErr (layerKey img.ID) = none)
      (hpar : (img.Parent != "" && !(Exists s img.Parent)) = true)
      (hrec : Runs env fs (layerKey img.ID :: held) img.Parent (grantKey s (layerKey img.ID))
        .ok s2 evs)
      (hreg : registerAndRelease env img s2 = (r, s3, evs3)) :
      Runs env fs held address s r s3
        (reads ++ [.poolAdd (layerKey img.ID) true, .recurse img.Parent] ++ evs ++ evs3)
  | parentErr {held address s img reads s2 evs e} (hl : LookupImage s address = false)
      (hr : readStaged env fs address = (.ok img, reads))
      (hp : layerKey img.ID ∉ s.pullingPool) (he : env.poolAddErr (layerKey img.ID) = none)
      (hpar : (img.Parent != "" && !(Exists s img.Parent)) = true)
      (hrec : Runs env fs (layerKey img.ID :: held) img.Parent (grantKey s (layerKey img.ID))
        (.err e) s2 evs) :
      Runs env fs held address s (.err e) (poolRemove s2 "pull" (layerKey img.ID))
        (reads ++ [.poolAdd (layerKey img.ID) true, .recurse img.Parent] ++ evs ++
          [.poolRemove (layerKey img.ID)])
  | parentBlocked {held address s img reads s2 evs} (hl : LookupImage s address = false)
      (hr : readStaged env fs address = (.ok img, reads))
      (hp : layerKey img.ID ∉ s.pullingPool) (he : env.poolAddErr (layerKey img.ID) = none)
      (hpar : (img.Parent != "" && !(Exists s img.Parent)) = true)
      (hrec : Runs env fs (layerKey img.ID :: held) img.Parent (grantKey s (layerKey img.ID))
        .blocked s2 evs) :
      Runs env fs held address s .blocked s2
        (reads ++ [.poolAdd (layerKey img.ID) true, .recurse img.Parent] ++ evs)

/-- The paths through the loop of lines 51-57: `RunsAll env fs ds s r t evs` says
that the loop over the entries `ds`, started in store `s`, ends as `r` in store
`t` after the calls `evs`. -/
inductive RunsAll (env : Env) (fs : Staging) :
    List DirEntry → TagStore → Outcome → TagStore → List Event → Prop
  | done {s} : RunsAll env fs [] s .ok s []
  | skip {d ds s r t evs} (hd : d.isDir = false) (hrest : RunsAll env fs ds s r t evs) :
      RunsAll env fs (d :: ds) s r t evs
  | stop {d ds s r t evs} (hd : d.isDir = true) (hrun : Runs env fs [] d.name s r t evs)
      (hr : r ≠ .ok) : RunsAll env fs (d :: ds) s r t evs
  | next {d ds s s1 evs r t evs2} (hd : d.isDir = true)
      (hrun : Runs env fs [] d.name s .ok s1 evs) (hrest : RunsAll env fs ds s1 r t evs2) :
      RunsAll env fs (d :: ds) s r t (evs ++ evs2)

/-! ## Concrete inputs -/

/-- A decoder for examples: the file `"<ID>|<Parent>"` decodes to that record,
anything without a bar is not metadata. -/
def sampleJSON (b : String) : Except Error Image :=
  match b.toList.dropWhile (fun c => c != '|') with
  | [] => .error ⟨"invalid character"⟩
  | _ :: p => .ok ⟨String.mk (b.toList.takeWhile (fun c => c != '|')), String.mk p⟩

/-- A store that registers an image unless its ID is already registered, as the
error of `graph.Register` on an existing image. -/
def sampleEnv : Env where
  tmpImageDir := "/tmp/docker-import-1"
  tempDirErr := none
  mkdirErr := none
  mapErr := none
  readDirErr := none
  NewImgJSON := sampleJSON
  ValidateID := fun id => if id.toList.contains ' ' then some ⟨"Invalid id"⟩ else none
  registerErr := fun s img => if Exists s img.ID then some ⟨"already exists"⟩ else none
  poolAddErr := fun _ => none
  setLoadErr := fun _ _ _ _ => none

/-- A staged image directory `name` holding the metadata `(id, parent)`. -/
def imageDir (name id parent : String) : DirEntry :=
  ⟨name, true, .ok (id ++ "|" ++ parent), .ok "layer"⟩

def emptyStore : TagStore := ⟨[], [], []⟩

/-- A root image `a` and its child `b`. -/
def chainStaging : Staging :=
  ⟨[imageDir "a" "a" "", imageDir "b" "b" "a"], .index [("app", [("v1", "b")])]⟩

/-- A store in which image `a` is resident. -/
def storeWithA : TagStore := ⟨[⟨"a", ""⟩], [], []⟩

/-- A bundle whose directory `x` carries the metadata of the image `a`. -/
def renamedBundle : Archive :=
  ⟨none, ⟨[imageDir "x" "a" ""], .notExist⟩⟩

/-- The bundle of the chain `a`, `b` with the tag `app:v1`. -/
def chainBundle : Archive := ⟨none, chainStaging⟩

/-- A bundle whose directory `a` carries the metadata of the image `b`, and whose
directory `b` carries metadata with an identifier that fails validation. -/
def shadowedInvalidBundle : Archive :=
  ⟨none, ⟨[imageDir "a" "b" "", imageDir "b" "z z" ""], .index [("app", [("v1", "b")])]⟩⟩

/-- A bundle with an image that names itself as parent, before a directory whose
metadata identifier fails validation. -/
def blockedInvalidBundle : Archive :=
  ⟨none, ⟨[imageDir "a" "a" "a", imageDir "b" "b b" ""], .index [("app", [("v1", "a")])]⟩⟩

/-- A bundle with a root image and a directory named by its invalid identifier. -/
def invalidBundle : Archive :=
  ⟨none, ⟨[imageDir "a" "a" "", imageDir "b b" "b b" "a"], .index [("app", [("v1", "a")])]⟩⟩

/-- A bundle whose directory `p` carries the metadata of an image `q`, while the
image `b` names `p` as its parent. -/
def mismatchBundle : Archive :=
  ⟨none, ⟨[imageDir "b" "b" "p", imageDir "p" "q" ""], .notExist⟩⟩

/-- A store in which another worker holds the key of image `b`. -/
def storeWithForeignKey : TagStore := ⟨[], ["layer:b"], []⟩

/-- A bundle in which every directory is named by its metadata ID: the image `a`
with parent `b`, a directory `aa` whose `json` does not decode, and the root `b`. -/
def childFirstBundle : Archive :=
  ⟨none, ⟨[imageDir "a" "a" "b", ⟨"aa", true, .ok "corrupt", .ok "layer"⟩,
    imageDir "b" "b" ""], .notExist⟩⟩

/-- A bundle in which every directory is named by its metadata ID, and the image
`b` names its parent `c` by the path `./c`. -/
def dottedParentBundle : Archive :=
  ⟨none, ⟨[imageDir "b" "b" "./c", imageDir "c" "c" ""], .notExist⟩⟩

/-- A bundle whose image `b` names as parent the directory `b/a` inside its own
directory, which carries the metadata of the image `a`. -/
def nestedBundle : Archive :=
  ⟨none, ⟨[imageDir "b" "b" "b/a", imageDir "b/a" "a" ""], .notExist⟩⟩

/-- A bundle in which every directory is named by its metadata ID and the image
`b` names as parent the path `../../x`, which leads out of the staging area to
the directory `/tmp/x`; that directory holds the metadata of the image `a`. -/
def traversalBundle : Archive :=
  ⟨none, ⟨[imageDir "b" "b" "../../x", imageDir "/tmp/x" "a" ""], .notExist⟩⟩

/-- A bundle of the one root image `a`. -/
def rootBundle : Archive :=
  ⟨none, ⟨[imageDir "a" "a" ""], .notExist⟩⟩

/-- A store in which another worker holds the key of image `a`. -/
def storeWithForeignKeyA : TagStore := ⟨[], ["layer:a"], []⟩

/-! ## Paths of `recursiveLoad` -/

theorem exists_grantKey (s : TagStore) (key id : String) : Exists (grantKey s key) id = Exists s id :=
  rfl

theorem poolAdd_inFlight (env : Env) (s : TagStore) (kind key : String)
    (h : key ∈ s.pullingPool) :
    poolAdd env s kind key = (.inFlight ⟨kind ++ " " ++ key ++ " is already in progress"⟩, s) := by
  simp [poolAdd, h]

theorem poolAdd_refused (env : Env) (s : TagStore) (kind key : String) (e : Error)
    (h : key ∉ s.pullingPool) (he : env.poolAddErr key = some e) :
    poolAdd env s kind key = (.refused e, s) := by
  simp [poolAdd, h, he]

theorem poolAdd_granted (env : Env) (s : TagStore) (kind key : String)
    (h : key ∉ s.pullingPool) (he : env.poolAddErr key = none) :
    poolAdd env s kind key = (.granted, grantKey s key) := by
  simp [poolAdd, h, he, grantKey]

/-- Every result of `recursiveLoad` is the result of one of its paths. -/
theorem runs_of_recursiveLoad (env : Env) (fs : Staging) :
    ∀ (fuel : Nat) (held : List String) (address : String) (s : TagStore) (r : Outcome)
      (t : TagStore) (evs : List Event),
      recursiveLoad env fs fuel held address s = some (r, t, evs) →
      Runs env fs held address s r t evs := by
  intro fuel
  induction fuel with
  | zero => intro held address s r t evs h; simp [recursiveLoad] at h
  | succ n ih =>
    intro held address s r t evs h
    rw [recursiveLoad] at h
    cases hl : LookupImage s address with
    | true =>
      simp only [hl, if_true, Option.some.injEq, Prod.mk.injEq] at h
      obtain ⟨rfl, rfl, rfl⟩ := h
      exact .known hl
    | false =>
      simp only [hl, Bool.false_eq_true, if_false] at h
      rcases hr : readStaged env fs address with ⟨res, reads⟩
      rw [hr] at h
      cases res with
      | error e =>
        simp only [Option.some.injEq, Prod.mk.injEq] at h
        obtain ⟨rfl, rfl, rfl⟩ := h
        exact .unreadable hl hr
      | ok img =>
        simp only at h
        by_cases hp : layerKey img.ID ∈ s.pullingPool
        · rw [poolAdd_inFlight env s "pull" _ hp] at h
          simp only at h
          by_cases hh : layerKey img.ID ∈ held
          · simp only [hh, if_true, Option.some.injEq, Prod.mk.injEq] at h
            obtain ⟨rfl, rfl, rfl⟩ := h
            exact .selfWait hl hr hp hh
          · simp only [hh, if_false, Option.some.injEq, Prod.mk.injEq] at h
            obtain ⟨rfl, rfl, rfl⟩ := h
            exact .waited hl hr hp hh
        · cases he : env.poolAddErr (layerKey img.ID) with
          | some e =>
            rw [poolAdd_refused env s "pull" _ e hp he] at h
            simp only [Option.some.injEq, Prod.mk.injEq] at h
            obtain ⟨rfl, rfl, rfl⟩ := h
            exact .refused hl hr hp he
          | none =>
            rw [poolAdd_granted env s "pull" _ hp he] at h
            simp only [exists_grantKey] at h
            cases hpar : (img.Parent != "" && !(Exists s img.Parent)) with
            | false =>
              simp only [hpar, Bool.false_eq_true, if_false] at h
              rcases hreg : registerAndRelease env img (grantKey s (layerKey img.ID)) with
                ⟨r3, s3, evs3⟩
              rw [hreg] at h
              simp only [Option.some.injEq, Prod.mk.injEq] at h
              obtain ⟨rfl, rfl, rfl⟩ := h
              exact .leaf hl hr hp he hpar hreg
            | true =>
              simp only [hpar, if_true] at h
              cases hrec : recursiveLoad env fs n (layerKey img.ID :: held) img.Parent
                  (grantKey s (layerKey img.ID)) with
              | none => rw [hrec] at h; simp at h
              | some res =>
                obtain ⟨r2, s2, evs2⟩ := res
                rw [hrec] at h
                have hrun := ih _ _ _ _ _ _ hrec
                cases r2 with
                | ok =>
                  simp only at h
                  rcases hreg : registerAndRelease env img s2 with ⟨r3, s3, evs3⟩
                  rw [hreg] at h
                  simp only [Option.some.injEq, Prod.mk.injEq] at h
                  obtain ⟨rfl, rfl, rfl⟩ := h
                  exact .parentOk hl hr hp he hpar hrun hreg
                | err e =>
                  simp only [Option.some.injEq, Prod.mk.injEq] at h
                  obtain ⟨rfl, rfl, rfl⟩ := h
                  exact .parentErr hl hr hp he hpar hrun
                | blocked =>
                  simp only [Option.some.injEq, Prod.mk.injEq] at h
                  obtain ⟨rfl, rfl, rfl⟩ := h
                  exact .parentBlocked hl hr hp he hpar hrun

/-! ## The depth of the recursion -/

theorem splitPath_plain :
    ∀ (cs cur : List Char), '/' ∉ cs → splitPath cs cur = [String.mk (cur.reverse ++ cs)] := by
  intro cs
  induction cs with
  | nil => intro cur _; simp [splitPath]
  | cons c cs ih =>
    intro cur h
    simp only [List.mem_cons, not_or] at h
    have hc : c ≠ '/' := fun e => h.1 e.symm
    rw [splitPath, if_neg hc, ih _ h.2]
    simp

theorem components_plain (p : String) (h : isPlain p = true) : components p = [p] := by
  unfold isPlain at h
  simp only [Bool.and_eq_true, bne_iff_ne, ne_eq, Bool.not_eq_true',
    List.contains_eq_any_beq, List.any_eq_false, beq_iff_eq] at h
  unfold components
  rw [splitPath_plain]
  · simp
  · intro hc; exact h.2 _ hc rfl

theorem cleanStep_plain (rooted : Bool) (stack : List String) (p : String)
    (h : isPlain p = true) : cleanStep rooted stack p = stack ++ [p] := by
  unfold isPlain at h
  simp only [Bool.and_eq_true, bne_iff_ne, ne_eq] at h
  unfold cleanStep
  rw [if_neg (by rintro (h1 | h1); exact h.1.1.1 h1; exact h.1.1.2 h1), if_neg h.1.2]

theorem dropBase_append : ∀ (b rest : List String), dropBase b (b ++ rest) = some rest := by
  intro b
  induction b with
  | nil => intro rest; cases rest <;> rfl
  | cons x xs ih => intro rest; simp [dropBase, ih]

/-- A plain file name denotes the top-level entry of that name. -/
theorem pathKey_plain (env : Env) (p : String) (h : isPlain p = true) : pathKey env p = p := by
  unfold pathKey
  rw [components_plain p h]
  have hc : cleanPath (isRooted env.tmpImageDir) (components env.tmpImageDir ++ ["repo"] ++ [p]) =
      cleanPath (isRooted env.tmpImageDir) (components env.tmpImageDir ++ ["repo"]) ++ [p] := by
    unfold cleanPath
    rw [List.foldl_append]
    simp only [List.foldl_cons, List.foldl_nil]
    exact cleanStep_plain _ _ p h
  rw [hc, dropBase_append]
  simp [String.intercalate, String.intercalate.go]

theorem isOutside_plain (p : String) (h : isPlain p = true) : isOutside p = false := by
  unfold isPlain at h
  simp only [Bool.and_eq_true, bne_iff_ne, ne_eq, Bool.not_eq_true',
    List.contains_eq_any_beq, List.any_eq_false, beq_iff_eq] at h
  unfold isOutside
  split
  · rename_i cs heq
    exact absurd rfl (h.2 '/' (by rw [heq]; simp))
  · rename_i cs heq
    exact absurd rfl (h.2 '/' (by rw [heq]; simp))
  · rfl

/-- A plain file name is a clean path below `repo`. -/
theorem isClean_plain (env : Env) (p : String) (h : isPlain p = true) :
    isClean env p = true := by
  unfold isClean
  rw [pathKey_plain env p h, isOutside_plain p h]
  simp

/-- A plain file name matches the pattern it equals and no other. -/
theorem matchesPattern_plain (pattern name : String) (h : isPlain name = true) :
    matchesPattern pattern name = true ↔ pattern = name := by
  unfold isPlain at h
  simp only [Bool.and_eq_true, bne_iff_ne, ne_eq, Bool.not_eq_true',
    List.contains_eq_any_beq, List.any_eq_false, beq_iff_eq] at h
  unfold matchesPattern
  rw [Bool.or_eq_true, beq_iff_eq, List.isPrefixOf_iff_prefix]
  constructor
  · rintro (h1 | ⟨t, ht⟩)
    · exact h1.symm
    · exfalso
      apply h.2 '/' _ rfl
      rw [← ht]
      simp
  · intro h1
    exact Or.inl h1.symm

theorem matchesPattern_self (name : String) : matchesPattern name name = true := by
  simp [matchesPattern]

theorem dir_mem (env : Env) (fs : Staging) (address : String) (d : DirEntry)
    (h : fs.dir env address = some d) :
    d ∈ fs.entries ∧ d.isDir = true ∧ d.name = pathKey env address := by
  unfold Staging.dir at h
  have h1 := List.mem_of_find?_eq_some h
  have h2 := List.find?_some h
  simp only [Bool.and_eq_true, beq_iff_eq] at h2
  exact ⟨h1, h2.1, h2.2⟩

/-- What a successful `readStaged` read: the directory, its file and the
validated record. -/
theorem readStaged_ok (env : Env) (fs : Staging) (address : String) (img : Image)
    (reads : List Event) (h : readStaged env fs address = (.ok img, reads)) :
    ∃ d b, fs.dir env address = some d ∧ d.json = .ok b ∧ env.NewImgJSON b = .ok img ∧
      env.ValidateID img.ID = none ∧ reads = [.readJSON address, .openLayer address] := by
  unfold readStaged ReadFile Open at h
  cases hd : fs.dir env address with
  | none => simp [hd] at h
  | some d =>
    simp only [hd] at h
    cases hj : d.json with
    | error e => simp [hj] at h
    | ok b =>
      simp only [hj] at h
      cases hy : d.layer with
      | error e => simp [hy] at h
      | ok y =>
        simp only [hy] at h
        cases hn : env.NewImgJSON b with
        | error e => simp [hn] at h
        | ok i =>
          simp only [hn] at h
          cases hv : env.ValidateID i.ID with
          | some e => simp [hv] at h
          | none =>
            simp only [hv, Prod.mk.injEq, Except.ok.injEq] at h
            obtain ⟨rfl, rfl⟩ := h
            exact ⟨d, b, rfl, hj, hn, hv, rfl⟩

/-- The record a successful `readStaged` read is the metadata of a staged
directory that lies where the address points. -/
theorem readStaged_metadata (env : Env) (fs : Staging) (address : String) (img : Image)
    (reads : List Event) (h : readStaged env fs address = (.ok img, reads)) :
    ∃ d ∈ fs.entries, d.name = pathKey env address ∧ d.metadata env = some img := by
  obtain ⟨d, b, hd, hj, hn, -, -⟩ := readStaged_ok env fs address img reads h
  obtain ⟨hmem, hdir, hname⟩ := dir_mem env fs address d hd
  exact ⟨d, hmem, hname, by simp [DirEntry.metadata, hdir, hj, hn]⟩

theorem readStaged_mem_stagedIDs (env : Env) (fs : Staging) (address : String) (img : Image)
    (reads : List Event) (h : readStaged env fs address = (.ok img, reads)) :
    img.ID ∈ stagedIDs env fs := by
  obtain ⟨d, hmem, -, hm⟩ := readStaged_metadata env fs address img reads h
  unfold stagedIDs
  rw [List.mem_filterMap]
  exact ⟨d, hmem, by simp [DirEntry.metadataID, hm]⟩

/-- Admitting a staged ID whose key was free leaves fewer free IDs. -/
theorem freeIDs_grant_lt (env : Env) (fs : Staging) (pool : List String) (id : String)
    (hid : id ∈ stagedIDs env fs) (hfree : layerKey id ∉ pool) :
    (freeIDs env fs (layerKey id :: pool)).length < (freeIDs env fs pool).length := by
  unfold freeIDs
  have hsub : (stagedIDs env fs).dedup.filter (fun i => !((layerKey id :: pool).contains (layerKey i)))
      = ((stagedIDs env fs).dedup.filter (fun i => !(pool.contains (layerKey i)))).filter
          (fun i => !((layerKey id :: pool).contains (layerKey i))) := by
    rw [List.filter_filter]
    apply List.filter_congr
    intro x _
    by_cases hx : layerKey x ∈ pool <;> simp [hx]
  rw [hsub]
  apply List.length_filter_lt_length_iff_exists.mpr
  refine ⟨id, ?_, ?_⟩
  · rw [List.mem_filter]
    exact ⟨List.mem_dedup.mpr hid, by simp [hfree]⟩
  · simp

theorem freeIDs_length_le (env : Env) (fs : Staging) (pool : List String) :
    (freeIDs env fs pool).length ≤ (stagedIDs env fs).dedup.length :=
  List.length_filter_le _ _

theorem stagedIDs_length_le (env : Env) (fs : Staging) :
    (stagedIDs env fs).dedup.length ≤ fs.entries.length :=
  le_trans (List.Sublist.length_le (List.dedup_sublist _)) (List.length_filterMap_le _ _)

/-- A bound above the number of free IDs is enough for `recursiveLoad` to produce
its result. -/
theorem recursiveLoad_isSome (env : Env) (fs : Staging) :
    ∀ (fuel : Nat) (held : List String) (address : String) (s : TagStore),
      (freeIDs env fs s.pullingPool).length < fuel →
      (recursiveLoad env fs fuel held address s).isSome = true := by
  intro fuel
  induction fuel with
  | zero => intro held address s h; exact absurd h (Nat.not_lt_zero _)
  | succ n ih =>
    intro held address s hlt
    rw [recursiveLoad]
    cases hl : LookupImage s address with
    | true => simp
    | false =>
      simp only [Bool.false_eq_true, if_false]
      rcases hr : readStaged env fs address with ⟨res, reads⟩
      cases res with
      | error e => simp
      | ok img =>
        simp only
        by_cases hp : layerKey img.ID ∈ s.pullingPool
        · rw [poolAdd_inFlight env s "pull" _ hp]
          by_cases hh : layerKey img.ID ∈ held <;> simp [hh]
        · cases he : env.poolAddErr (layerKey img.ID) with
          | some e => rw [poolAdd_refused env s "pull" _ e hp he]; simp
          | none =>
            rw [poolAdd_granted env s "pull" _ hp he]
            simp only [exists_grantKey]
            by_cases hpar : (img.Parent != "" && !(Exists s img.Parent)) = true
            · rw [if_pos hpar]
              have hdec := freeIDs_grant_lt env fs s.pullingPool img.ID
                (readStaged_mem_stagedIDs env fs address img reads hr) hp
              have hsome := ih (layerKey img.ID :: held) img.Parent (grantKey s (layerKey img.ID))
                (by simp only [grantKey]; omega)
              cases hrec : recursiveLoad env fs n (layerKey img.ID :: held) img.Parent
                  (grantKey s (layerKey img.ID)) with
              | none => rw [hrec] at hsome; simp at hsome
              | some res =>
                obtain ⟨r2, s2, evs2⟩ := res
                cases r2 <;> simp
            · rw [if_neg hpar]
              simp

theorem readStaged_reads (env : Env) (fs : Staging) (address : String)
    (res : Except Error Image) (reads : List Event)
    (h : readStaged env fs address = (res, reads)) :
    reads = [.readJSON address] ∨ reads = [.readJSON address, .openLayer address] := by
  unfold readStaged at h
  split at h
  · simp only [Prod.mk.injEq] at h; exact Or.inl h.2.symm
  · split at h
    · simp only [Prod.mk.injEq] at h; exact Or.inr h.2.symm
    · split at h
      · simp only [Prod.mk.injEq] at h; exact Or.inr h.2.symm
      · split at h <;> (simp only [Prod.mk.injEq] at h; exact Or.inr h.2.symm)

theorem registerAndRelease_cases (env : Env) (img : Image) (s : TagStore) :
    (∃ e, env.registerErr s img = some e ∧
      registerAndRelease env img s = (.err e, poolRemove s "pull" (layerKey img.ID),
        [.register img (some e), .poolRemove (layerKey img.ID)])) ∨
    (env.registerErr s img = none ∧
      registerAndRelease env img s =
        (.ok, poolRemove { s with graph := insertImage s.graph img } "pull" (layerKey img.ID),
          [.register img none, .poolRemove (layerKey img.ID)])) := by
  unfold registerAndRelease Register
  cases h : env.registerErr s img with
  | some e => exact Or.inl ⟨e, rfl, rfl⟩
  | none => exact Or.inr ⟨rfl, rfl⟩

theorem graphAfter_append (a b : List Event) :
    ∀ g : List Image, graphAfter g (a ++ b) = graphAfter (graphAfter g a) b := by
  induction a with
  | nil => intro g; rfl
  | cons ev evs ih =>
    intro g
    cases ev with
    | register img err =>
      cases err with
      | none => exact ih _
      | some e => exact ih _
    | _ => exact ih _

theorem anyID_insertImage (g : List Image) (img : Image) (id : String) :
    (insertImage g img).any (fun o => o.ID == id) =
      (img.ID == id || g.any (fun o => o.ID == id)) := by
  unfold insertImage
  rw [List.any_cons]
  by_cases h : img.ID = id
  · simp [h]
  · have h1 : (img.ID == id) = false := by simpa using h
    rw [h1, Bool.false_or, Bool.false_or, Bool.eq_iff_iff]
    simp only [List.any_eq_true, List.mem_filter, beq_iff_eq, bne_iff_ne, ne_eq]
    constructor
    · rintro ⟨o, ⟨ho, -⟩, hid⟩; exact ⟨o, ho, hid⟩
    · rintro ⟨o, ho, hid⟩; exact ⟨o, ⟨ho, by rw [hid]; exact fun hc => h hc.symm⟩, hid⟩

theorem filter_ne_cons_self (pool : List String) (key : String) (h : key ∉ pool) :
    (key :: pool).filter (fun k => k != key) = pool := by
  simp only [List.filter_cons, bne_self_eq_false, Bool.false_eq_true, if_false]
  apply List.filter_eq_self.mpr
  intro a ha
  simp only [bne_iff_ne, ne_eq]
  rintro rfl
  exact h ha

/-- What `registerAndRelease` does to a store. -/
theorem registerAndRelease_frame (env : Env) (img : Image) (s t : TagStore) (r : Outcome)
    (evs : List Event) (h : registerAndRelease env img s = (r, t, evs)) :
    t.Repositories = s.Repositories ∧
      t.pullingPool = s.pullingPool.filter (fun k => k != layerKey img.ID) ∧
      r ≠ .blocked ∧ t.graph = graphAfter s.graph evs ∧
      ((r = .ok ∧ t.graph = insertImage s.graph img ∧ evs = [.register img none,
          .poolRemove (layerKey img.ID)]) ∨
        (∃ e, r = .err e ∧ t.graph = s.graph ∧ evs = [.register img (some e),
          .poolRemove (layerKey img.ID)])) := by
  rcases registerAndRelease_cases env img s with ⟨e, -, h2⟩ | ⟨-, h2⟩
  · rw [h2] at h
    simp only [Prod.mk.injEq] at h
    obtain ⟨rfl, rfl, rfl⟩ := h
    exact ⟨rfl, rfl, by simp, rfl, Or.inr ⟨e, rfl, rfl, rfl⟩⟩
  · rw [h2] at h
    simp only [Prod.mk.injEq] at h
    obtain ⟨rfl, rfl, rfl⟩ := h
    exact ⟨rfl, rfl, by simp, rfl, Or.inl ⟨rfl, rfl, rfl⟩⟩

theorem graphAfter_reads (env : Env) (fs : Staging) (address : String)
    (res : Except Error Image) (reads : List Event) (g : List Image)
    (h : readStaged env fs address = (res, reads)) : graphAfter g reads = g := by
  rcases readStaged_reads env fs address res reads h with rfl | rfl <;> rfl

theorem waitedKeys_append (a b : List Event) :
    waitedKeys (a ++ b) = waitedKeys a ++ waitedKeys b := by
  simp [waitedKeys, List.filterMap_append]

theorem waitedKeys_reads (env : Env) (fs : Staging) (address : String)
    (res : Except Error Image) (reads : List Event)
    (h : readStaged env fs address = (res, reads)) : waitedKeys reads = [] := by
  rcases readStaged_reads env fs address res reads h with rfl | rfl <;> rfl

theorem waitedKeys_registerAndRelease (env : Env) (img : Image) (s t : TagStore)
    (r : Outcome) (evs : List Event) (h : registerAndRelease env img s = (r, t, evs)) :
    waitedKeys evs = [] := by
  rcases registerAndRelease_cases env img s with ⟨e, -, h2⟩ | ⟨-, h2⟩ <;>
  · rw [h2] at h
    simp only [Prod.mk.injEq] at h
    obtain ⟨-, -, rfl⟩ := h
    rfl

theorem unwaited_of_nil (evs : List Event) (pool : List String) (h : waitedKeys evs = []) :
    unwaited evs pool = pool := by
  unfold unwaited
  rw [h]
  simp

theorem unwaited_nil (evs : List Event) : unwaited evs [] = [] := rfl

theorem unwaited_append (a b : List Event) (pool : List String) :
    unwaited (a ++ b) pool = unwaited b (unwaited a pool) := by
  unfold unwaited
  rw [waitedKeys_append, List.filter_filter]
  apply List.filter_congr
  intro k _
  simp only [List.contains_eq_any_beq, List.any_append, Bool.not_or]
  exact Bool.and_comm _ _

/-- Releasing a key that was admitted on top of the pool undoes the admission. -/
theorem unwaited_release (evs : List Event) (pool : List String) (key : String)
    (hfree : key ∉ pool) :
    (unwaited evs (key :: pool)).filter (fun k => k != key) = unwaited evs pool := by
  unfold unwaited
  rw [List.filter_filter, List.filter_cons]
  simp only [bne_self_eq_false, Bool.false_and, Bool.false_eq_true, if_false]
  apply List.filter_congr
  intro k hk
  have hne : (k != key) = true := by
    simp only [bne_iff_ne, ne_eq]
    rintro rfl
    exact hfree hk
  rw [hne, Bool.true_and]

/-- A run leaves the tag index alone, changes the graph only by its successful
`Register` calls, and, unless it blocks, returns the pool as it found it, less
the keys of other workers it waited on. -/
theorem runs_frame (env : Env) (fs : Staging) (held : List String) (address : String)
    (s t : TagStore) (r : Outcome) (evs : List Event) (h : Runs env fs held address s r t evs) :
    t.Repositories = s.Repositories ∧
      (r ≠ .blocked → t.pullingPool = unwaited evs s.pullingPool) ∧
      t.graph = graphAfter s.graph evs := by
  induction h with
  | known hl => exact ⟨rfl, fun _ => (unwaited_of_nil [] _ rfl).symm, rfl⟩
  | unreadable hl hr =>
    exact ⟨rfl, fun _ => (unwaited_of_nil _ _ (waitedKeys_reads env fs _ _ _ hr)).symm,
      (graphAfter_reads env fs _ _ _ _ hr).symm⟩
  | selfWait hl hr hp hh =>
    refine ⟨rfl, fun hb => absurd rfl hb, ?_⟩
    rw [graphAfter_append, graphAfter_reads env fs _ _ _ _ hr]; rfl
  | @waited held address s img reads hl hr hp hh =>
    refine ⟨rfl, fun _ => ?_, ?_⟩
    · rw [unwaited_append, unwaited_of_nil _ _ (waitedKeys_reads env fs _ _ _ hr)]
      unfold unwaited poolRemove
      apply List.filter_congr
      intro k _
      by_cases hk : k = layerKey img.ID <;> simp [waitedKeys, hk]
    · rw [graphAfter_append, graphAfter_reads env fs _ _ _ _ hr]; rfl
  | @refused held address s img reads e hl hr hp he =>
    refine ⟨rfl, fun _ => ?_, ?_⟩
    · rw [unwaited_append, unwaited_of_nil _ _ (waitedKeys_reads env fs _ _ _ hr)]
      exact (unwaited_of_nil [Event.poolAdd (layerKey img.ID) false] _ rfl).symm
    · rw [graphAfter_append, graphAfter_reads env fs _ _ _ _ hr]; rfl
  | @leaf held address s img reads r s3 evs3 hl hr hp he hpar hreg =>
    obtain ⟨h1, h2, -, h4, -⟩ := registerAndRelease_frame env _ _ _ _ _ hreg
    refine ⟨h1, fun _ => ?_, ?_⟩
    · rw [unwaited_append, unwaited_append,
        unwaited_of_nil _ _ (waitedKeys_reads env fs _ _ _ hr),
        unwaited_of_nil [Event.poolAdd (layerKey img.ID) true] _ rfl,
        unwaited_of_nil _ _ (waitedKeys_registerAndRelease env _ _ _ _ _ hreg), h2]
      exact filter_ne_cons_self _ _ hp
    · rw [graphAfter_append, graphAfter_append, graphAfter_reads env fs _ _ _ _ hr, h4]; rfl
  | @parentOk held address s img reads s2 evs r s3 evs3 hl hr hp he hpar hrec hreg ih =>
    obtain ⟨i1, i2, i3⟩ := ih
    obtain ⟨h1, h2, -, h4, -⟩ := registerAndRelease_frame env _ _ _ _ _ hreg
    refine ⟨h1.trans i1, fun _ => ?_, ?_⟩
    · rw [unwaited_append, unwaited_append, unwaited_append,
        unwaited_of_nil _ _ (waitedKeys_reads env fs _ _ _ hr),
        unwaited_of_nil [Event.poolAdd (layerKey img.ID) true, Event.recurse img.Parent] _ rfl,
        unwaited_of_nil evs3 _ (waitedKeys_registerAndRelease env _ _ _ _ _ hreg),
        h2, i2 (by simp)]
      exact unwaited_release evs s.pullingPool _ hp
    · rw [graphAfter_append, graphAfter_append, graphAfter_append,
        graphAfter_reads env fs _ _ _ _ hr, h4, i3]; rfl
  | @parentErr held address s img reads s2 evs e hl hr hp he hpar hrec ih =>
    obtain ⟨i1, i2, i3⟩ := ih
    refine ⟨i1, fun _ => ?_, ?_⟩
    · rw [unwaited_append, unwaited_append, unwaited_append,
        unwaited_of_nil _ _ (waitedKeys_reads env fs _ _ _ hr),
        unwaited_of_nil [Event.poolAdd (layerKey img.ID) true, Event.recurse img.Parent] _ rfl,
        unwaited_of_nil [Event.poolRemove (layerKey img.ID)] _ rfl]
      simp only [poolRemove, i2 (by simp)]
      exact unwaited_release evs s.pullingPool _ hp
    · rw [graphAfter_append, graphAfter_append, graphAfter_append,
        graphAfter_reads env fs _ _ _ _ hr]
      simp only [poolRemove, i3]; rfl
  | parentBlocked hl hr hp he hpar hrec ih =>
    obtain ⟨i1, i2, i3⟩ := ih
    refine ⟨i1, fun hb => absurd rfl hb, ?_⟩
    rw [graphAfter_append, graphAfter_append, graphAfter_reads env fs _ _ _ _ hr, i3]; rfl

/-! ## The `Register` calls of a run -/

theorem registerCalls_append (a b : List Event) :
    registerCalls (a ++ b) = registerCalls a ++ registerCalls b := by
  simp [registerCalls, List.filterMap_append]

theorem setLoadCalls_append (a b : List Event) :
    setLoadCalls (a ++ b) = setLoadCalls a ++ setLoadCalls b := by
  simp [setLoadCalls, List.filterMap_append]

theorem untarCalls_append (a b : List Event) :
    untarCalls (a ++ b) = untarCalls a ++ untarCalls b := by
  simp [untarCalls, List.filterMap_append]

theorem registerCalls_cons (ev : Event) (evs : List Event) :
    registerCalls (ev :: evs) =
      (match ev with
        | .register img _ => [img]
        | _ => []) ++ registerCalls evs := by
  cases ev <;> rfl

theorem registerCalls_nil : registerCalls [] = [] := rfl

theorem registerCalls_reads (env : Env) (fs : Staging) (address : String)
    (res : Except Error Image) (reads : List Event)
    (h : readStaged env fs address = (res, reads)) : registerCalls reads = [] := by
  rcases readStaged_reads env fs address res reads h with rfl | rfl <;> rfl

theorem setLoadCalls_reads (env : Env) (fs : Staging) (address : String)
    (res : Except Error Image) (reads : List Event)
    (h : readStaged env fs address = (res, reads)) : setLoadCalls reads = [] := by
  rcases readStaged_reads env fs address res reads h with rfl | rfl <;> rfl

theorem untarCalls_reads (env : Env) (fs : Staging) (address : String)
    (res : Except Error Image) (reads : List Event)
    (h : readStaged env fs address = (res, reads)) : untarCalls reads = [] := by
  rcases readStaged_reads env fs address res reads h with rfl | rfl <;> rfl

theorem registerAndRelease_calls (env : Env) (img : Image) (s t : TagStore) (r : Outcome)
    (evs : List Event) (h : registerAndRelease env img s = (r, t, evs)) :
    registerCalls evs = [img] ∧ setLoadCalls evs = [] ∧ untarCalls evs = [] := by
  rcases registerAndRelease_cases env img s with ⟨e, -, h2⟩ | ⟨-, h2⟩ <;>
  · rw [h2] at h
    simp only [Prod.mk.injEq] at h
    obtain ⟨-, -, rfl⟩ := h
    exact ⟨rfl, rfl, rfl⟩

/-- Every record a run hands to `Register` was read and validated from a staged
address that the graph did not know when the run started. -/
theorem runs_registerCalls (env : Env) (fs : Staging) (held : List String) (address : String)
    (s t : TagStore) (r : Outcome) (evs : List Event) (h : Runs env fs held address s r t evs) :
    ∀ img ∈ registerCalls evs, ∃ a reads,
      readStaged env fs a = (.ok img, reads) ∧ LookupImage s a = false := by
  induction h with
  | known hl => intro img hi; simp only [registerCalls_cons, registerCalls_nil, List.nil_append, List.append_nil,
      List.mem_append, List.mem_singleton, List.not_mem_nil, false_or, or_false] at hi
  | unreadable hl hr =>
    intro img hi; rw [registerCalls_reads env fs _ _ _ hr] at hi; simp at hi
  | selfWait hl hr hp hh =>
    intro img hi
    rw [registerCalls_append, registerCalls_reads env fs _ _ _ hr] at hi
    simp only [registerCalls_cons, registerCalls_nil, List.nil_append, List.append_nil,
      List.mem_append, List.mem_singleton, List.not_mem_nil, false_or, or_false] at hi
  | waited hl hr hp hh =>
    intro img hi
    rw [registerCalls_append, registerCalls_reads env fs _ _ _ hr] at hi
    simp only [registerCalls_cons, registerCalls_nil, List.nil_append, List.append_nil,
      List.mem_append, List.mem_singleton, List.not_mem_nil, false_or, or_false] at hi
  | refused hl hr hp he =>
    intro img hi
    rw [registerCalls_append, registerCalls_reads env fs _ _ _ hr] at hi
    simp only [registerCalls_cons, registerCalls_nil, List.nil_append, List.append_nil,
      List.mem_append, List.mem_singleton, List.not_mem_nil, false_or, or_false] at hi
  | leaf hl hr hp he hpar hreg =>
    intro img hi
    rw [registerCalls_append, registerCalls_append, registerCalls_reads env fs _ _ _ hr,
      (registerAndRelease_calls env _ _ _ _ _ hreg).1] at hi
    simp only [registerCalls_cons, registerCalls_nil, List.nil_append, List.append_nil,
      List.mem_append, List.mem_singleton, List.not_mem_nil, false_or, or_false] at hi
    subst hi
    exact ⟨_, _, hr, hl⟩
  | parentOk hl hr hp he hpar hrec hreg ih =>
    intro img hi
    rw [registerCalls_append, registerCalls_append, registerCalls_append,
      registerCalls_reads env fs _ _ _ hr,
      (registerAndRelease_calls env _ _ _ _ _ hreg).1] at hi
    simp only [registerCalls_cons, registerCalls_nil, List.nil_append, List.append_nil,
      List.mem_append, List.mem_singleton, List.not_mem_nil, false_or, or_false] at hi
    rcases hi with hi | rfl
    · exact ih img hi
    · exact ⟨_, _, hr, hl⟩
  | parentErr hl hr hp he hpar hrec ih =>
    intro img hi
    rw [registerCalls_append, registerCalls_append, registerCalls_append,
      registerCalls_reads env fs _ _ _ hr] at hi
    simp only [registerCalls_cons, registerCalls_nil, List.nil_append, List.append_nil,
      List.mem_append, List.mem_singleton, List.not_mem_nil, false_or, or_false] at hi
    exact ih img hi
  | parentBlocked hl hr hp he hpar hrec ih =>
    intro img hi
    rw [registerCalls_append, registerCalls_append,
      registerCalls_reads env fs _ _ _ hr] at hi
    simp only [registerCalls_cons, registerCalls_nil, List.nil_append, List.append_nil,
      List.mem_append, List.mem_singleton, List.not_mem_nil, false_or, or_false] at hi
    exact ih img hi

/-- A run calls neither `SetLoad` nor the extractor. -/
theorem runs_no_setLoad (env : Env) (fs : Staging) (held : List String) (address : String)
    (s t : TagStore) (r : Outcome) (evs : List Event) (h : Runs env fs held address s r t evs) :
    setLoadCalls evs = [] ∧ untarCalls evs = [] := by
  induction h with
  | known hl => exact ⟨rfl, rfl⟩
  | unreadable hl hr =>
    exact ⟨setLoadCalls_reads env fs _ _ _ hr, untarCalls_reads env fs _ _ _ hr⟩
  | selfWait hl hr hp hh =>
    rw [setLoadCalls_append, untarCalls_append, setLoadCalls_reads env fs _ _ _ hr,
      untarCalls_reads env fs _ _ _ hr]
    exact ⟨rfl, rfl⟩
  | waited hl hr hp hh =>
    rw [setLoadCalls_append, untarCalls_append, setLoadCalls_reads env fs _ _ _ hr,
      untarCalls_reads env fs _ _ _ hr]
    exact ⟨rfl, rfl⟩
  | refused hl hr hp he =>
    rw [setLoadCalls_append, untarCalls_append, setLoadCalls_reads env fs _ _ _ hr,
      untarCalls_reads env fs _ _ _ hr]
    exact ⟨rfl, rfl⟩
  | leaf hl hr hp he hpar hreg =>
    obtain ⟨-, c2, c3⟩ := registerAndRelease_calls env _ _ _ _ _ hreg
    simp only [setLoadCalls_append, untarCalls_append, setLoadCalls_reads env fs _ _ _ hr,
      untarCalls_reads env fs _ _ _ hr, c2, c3]
    exact ⟨rfl, rfl⟩
  | parentOk hl hr hp he hpar hrec hreg ih =>
    obtain ⟨-, c2, c3⟩ := registerAndRelease_calls env _ _ _ _ _ hreg
    simp only [setLoadCalls_append, untarCalls_append, setLoadCalls_reads env fs _ _ _ hr,
      untarCalls_reads env fs _ _ _ hr, c2, c3, ih.1, ih.2]
    exact ⟨rfl, rfl⟩
  | parentErr hl hr hp he hpar hrec ih =>
    simp only [setLoadCalls_append, untarCalls_append, setLoadCalls_reads env fs _ _ _ hr,
      untarCalls_reads env fs _ _ _ hr, ih.1, ih.2]
    exact ⟨rfl, rfl⟩
  | parentBlocked hl hr hp he hpar hrec ih =>
    simp only [setLoadCalls_append, untarCalls_append, setLoadCalls_reads env fs _ _ _ hr,
      untarCalls_reads env fs _ _ _ hr, ih.1, ih.2]
    exact ⟨rfl, rfl⟩

/-! ## The pool calls of a run -/

theorem heldAfter_append (a b : List Event) :
    ∀ held : List String, heldAfter held (a ++ b) = heldAfter (heldAfter held a) b := by
  induction a with
  | nil => intro held; rfl
  | cons ev evs ih =>
    intro held
    cases ev with
    | poolAdd k g => cases g <;> exact ih _
    | _ => exact ih _

theorem disciplined_append (a b : List Event) :
    ∀ held : List String,
      disciplined held (a ++ b) = (disciplined held a && disciplined (heldAfter held a) b) := by
  induction a with
  | nil => intro held; simp [disciplined, heldAfter]
  | cons ev evs ih =>
    intro held
    cases ev with
    | poolAdd k g =>
      cases g
      · exact ih _
      · show (!(held.contains k) && disciplined (k :: held) (evs ++ b)) = _
        rw [ih, ← Bool.and_assoc]; rfl
    | poolRemove k =>
      show ((held.head? == some k) && disciplined (held.erase k) (evs ++ b)) = _
      rw [ih, ← Bool.and_assoc]; rfl
    | _ => exact ih _

theorem selfWaits_append (a b : List Event) :
    ∀ held : List String,
      selfWaits held (a ++ b) = (selfWaits held a || selfWaits (heldAfter held a) b) := by
  induction a with
  | nil => intro held; simp [selfWaits, heldAfter]
  | cons ev evs ih =>
    intro held
    cases ev with
    | poolAdd k g => cases g <;> exact ih _
    | wait k =>
      show (held.contains k || selfWaits held (evs ++ b)) = _
      rw [ih, ← Bool.or_assoc]; rfl
    | _ => exact ih _

theorem disciplined_grant (held : List String) (k : String) (evs : List Event) :
    disciplined held ([.poolAdd k true] ++ evs) =
      (!(held.contains k) && disciplined (k :: held) evs) := rfl

theorem disciplined_grant_recurse (held : List String) (k p : String) (evs : List Event) :
    disciplined held ([.poolAdd k true, .recurse p] ++ evs) =
      (!(held.contains k) && disciplined (k :: held) evs) := rfl

theorem selfWaits_grant (held : List String) (k : String) (evs : List Event) :
    selfWaits held ([.poolAdd k true] ++ evs) = selfWaits (k :: held) evs := rfl

theorem selfWaits_grant_recurse (held : List String) (k p : String) (evs : List Event) :
    selfWaits held ([.poolAdd k true, .recurse p] ++ evs) = selfWaits (k :: held) evs := rfl

theorem heldAfter_grant (held : List String) (k : String) (evs : List Event) :
    heldAfter held ([.poolAdd k true] ++ evs) = heldAfter (k :: held) evs := rfl

theorem heldAfter_grant_recurse (held : List String) (k p : String) (evs : List Event) :
    heldAfter held ([.poolAdd k true, .recurse p] ++ evs) = heldAfter (k :: held) evs := rfl

theorem not_contains_of_not_mem (held : List String) (k : String) (h : k ∉ held) :
    (!(held.contains k)) = true := by
  simp [h]

theorem pool_reads (env : Env) (fs : Staging) (address : String)
    (res : Except Error Image) (reads : List Event) (held : List String)
    (h : readStaged env fs address = (res, reads)) :
    heldAfter held reads = held ∧ disciplined held reads = true ∧
      selfWaits held reads = false := by
  rcases readStaged_reads env fs address res reads h with rfl | rfl <;>
    exact ⟨rfl, rfl, rfl⟩

/-- The pool calls of a run are well nested on top of the keys its call stack
holds, the run blocks exactly when it waits on one of them, and a run that
returns has released every key it was admitted on. -/
theorem runs_pool (env : Env) (fs : Staging) (held : List String) (address : String)
    (s t : TagStore) (r : Outcome) (evs : List Event) (h : Runs env fs held address s r t evs) :
    (∀ k ∈ held, k ∈ s.pullingPool) →
      disciplined held evs = true ∧ (selfWaits held evs = true ↔ r = .blocked) ∧
        (r ≠ .blocked → heldAfter held evs = held) := by
  induction h with
  | known hl => intro _; exact ⟨rfl, by simp [selfWaits], fun _ => rfl⟩
  | unreadable hl hr =>
    intro _
    obtain ⟨p1, p2, p3⟩ := pool_reads env fs _ _ _ _ hr
    exact ⟨p2, by simp [p3], fun _ => p1⟩
  | @selfWait held address s img reads hl hr hp hh =>
    intro _
    obtain ⟨p1, p2, p3⟩ := pool_reads env fs _ _ _ held hr
    refine ⟨?_, ?_, fun hb => absurd rfl hb⟩
    · rw [disciplined_append, p1, p2]; rfl
    · rw [selfWaits_append, p1, p3]
      simp [selfWaits, hh]
  | @waited held address s img reads hl hr hp hh =>
    intro _
    obtain ⟨p1, p2, p3⟩ := pool_reads env fs _ _ _ held hr
    refine ⟨?_, ?_, fun _ => ?_⟩
    · rw [disciplined_append, p1, p2]; rfl
    · rw [selfWaits_append, p1, p3]
      simp [selfWaits, hh]
    · rw [heldAfter_append, p1]; rfl
  | @refused held address s img reads e hl hr hp he =>
    intro _
    obtain ⟨p1, p2, p3⟩ := pool_reads env fs _ _ _ held hr
    refine ⟨?_, ?_, fun _ => ?_⟩
    · rw [disciplined_append, p1, p2]; rfl
    · rw [selfWaits_append, p1, p3]
      simp [selfWaits]
    · rw [heldAfter_append, p1]; rfl
  | @leaf held address s img reads r s3 evs3 hl hr hp he hpar hreg =>
    intro hsub
    obtain ⟨p1, p2, p3⟩ := pool_reads env fs _ _ _ held hr
    have hk : layerKey img.ID ∉ held := fun hc => hp (hsub _ hc)
    obtain ⟨-, -, hnb, -, hev⟩ := registerAndRelease_frame env _ _ _ _ _ hreg
    have hev3 : disciplined (layerKey img.ID :: held) evs3 = true ∧
        selfWaits (layerKey img.ID :: held) evs3 = false ∧
        heldAfter (layerKey img.ID :: held) evs3 = held := by
      rcases hev with ⟨-, -, rfl⟩ | ⟨e, -, -, rfl⟩ <;>
        simp [disciplined, selfWaits, heldAfter]
    refine ⟨?_, ?_, fun _ => ?_⟩
    · rw [List.append_assoc, disciplined_append, p1, p2, disciplined_grant, hev3.1,
        not_contains_of_not_mem _ _ hk]; rfl
    · rw [List.append_assoc, selfWaits_append, p1, p3, selfWaits_grant, hev3.2.1]
      simp [hnb]
    · rw [List.append_assoc, heldAfter_append, p1, heldAfter_grant, hev3.2.2]
  | @parentOk held address s img reads s2 evs r s3 evs3 hl hr hp he hpar hrec hreg ih =>
    intro hsub
    obtain ⟨p1, p2, p3⟩ := pool_reads env fs _ _ _ held hr
    have hk : layerKey img.ID ∉ held := fun hc => hp (hsub _ hc)
    obtain ⟨i1, i2, i3⟩ := ih (by
      intro k hk'
      simp only [grantKey]
      rcases List.mem_cons.mp hk' with rfl | hk'
      · exact List.mem_cons_self _ _
      · exact List.mem_cons_of_mem _ (hsub _ hk'))
    have i2' : selfWaits (layerKey img.ID :: held) evs = false := by
      cases hsw : selfWaits (layerKey img.ID :: held) evs with
      | false => rfl
      | true => exact absurd (i2.mp hsw) (by simp)
    have i3' := i3 (by simp)
    obtain ⟨-, hpool2, -⟩ := runs_frame env fs _ _ _ _ _ _ hrec
    obtain ⟨-, -, hnb, -, hev⟩ :=
      registerAndRelease_frame env _ _ _ _ _ hreg
    have hev3 : disciplined (layerKey img.ID :: held) evs3 = true ∧
        selfWaits (layerKey img.ID :: held) evs3 = false ∧
        heldAfter (layerKey img.ID :: held) evs3 = held := by
      rcases hev with ⟨-, -, rfl⟩ | ⟨e, -, -, rfl⟩ <;>
        simp [disciplined, selfWaits, heldAfter]
    refine ⟨?_, ?_, fun _ => ?_⟩
    · rw [List.append_assoc, List.append_assoc, disciplined_append, p1, p2,
        disciplined_grant_recurse, disciplined_append, i1, i3', hev3.1,
        not_contains_of_not_mem _ _ hk]; rfl
    · rw [List.append_assoc, List.append_assoc, selfWaits_append, p1, p3,
        selfWaits_grant_recurse, selfWaits_append, i2', i3', hev3.2.1]
      simp [hnb]
    · rw [List.append_assoc, List.append_assoc, heldAfter_append, p1,
        heldAfter_grant_recurse, heldAfter_append, i3', hev3.2.2]
  | @parentErr held address s img reads s2 evs e hl hr hp he hpar hrec ih =>
    intro hsub
    obtain ⟨p1, p2, p3⟩ := pool_reads env fs _ _ _ held hr
    have hk : layerKey img.ID ∉ held := fun hc => hp (hsub _ hc)
    obtain ⟨i1, i2, i3⟩ := ih (by
      intro k hk'
      simp only [grantKey]
      rcases List.mem_cons.mp hk' with rfl | hk'
      · exact List.mem_cons_self _ _
      · exact List.mem_cons_of_mem _ (hsub _ hk'))
    have i2' : selfWaits (layerKey img.ID :: held) evs = false := by
      cases hsw : selfWaits (layerKey img.ID :: held) evs with
      | false => rfl
      | true => exact absurd (i2.mp hsw) (by simp)
    have i3' := i3 (by simp)
    have hev3 : disciplined (layerKey img.ID :: held) [Event.poolRemove (layerKey img.ID)] = true ∧
        selfWaits (layerKey img.ID :: held) [Event.poolRemove (layerKey img.ID)] = false ∧
        heldAfter (layerKey img.ID :: held) [Event.poolRemove (layerKey img.ID)] = held := by
      simp [disciplined, selfWaits, heldAfter]
    refine ⟨?_, ?_, fun _ => ?_⟩
    · rw [List.append_assoc, List.append_assoc, disciplined_append, p1, p2,
        disciplined_grant_recurse, disciplined_append, i1, i3', hev3.1,
        not_contains_of_not_mem _ _ hk]; rfl
    · rw [List.append_assoc, List.append_assoc, selfWaits_append, p1, p3,
        selfWaits_grant_recurse, selfWaits_append, i2', i3', hev3.2.1]
      simp
    · rw [List.append_assoc, List.append_assoc, heldAfter_append, p1,
        heldAfter_grant_recurse, heldAfter_append, i3', hev3.2.2]
  | @parentBlocked held address s img reads s2 evs hl hr hp he hpar hrec ih =>
    intro hsub
    obtain ⟨p1, p2, p3⟩ := pool_reads env fs _ _ _ held hr
    have hk : layerKey img.ID ∉ held := fun hc => hp (hsub _ hc)
    obtain ⟨i1, i2, i3⟩ := ih (by
      intro k hk'
      simp only [grantKey]
      rcases List.mem_cons.mp hk' with rfl | hk'
      · exact List.mem_cons_self _ _
      · exact List.mem_cons_of_mem _ (hsub _ hk'))
    have i2' : selfWaits (layerKey img.ID :: held) evs = true := i2.mpr rfl
    refine ⟨?_, ?_, fun hb => absurd rfl hb⟩
    · rw [List.append_assoc, disciplined_append, p1, p2, disciplined_grant_recurse, i1,
        not_contains_of_not_mem _ _ hk]; rfl
    · rw [List.append_assoc, selfWaits_append, p1, p3, selfWaits_grant_recurse, i2']
      simp

theorem count_reads (env : Env) (fs : Staging) (address : String)
    (res : Except Error Image) (reads : List Event) (k : String)
    (h : readStaged env fs address = (res, reads)) :
    reads.count (.poolAdd k true) = 0 ∧ reads.count (.poolRemove k) = 0 := by
  rcases readStaged_reads env fs address res reads h with rfl | rfl <;>
    simp [List.count_cons]

theorem count_registerAndRelease (env : Env) (img : Image) (s t : TagStore) (r : Outcome)
    (evs : List Event) (k : String) (h : registerAndRelease env img s = (r, t, evs)) :
    evs.count (.poolAdd k true) = 0 ∧
      evs.count (.poolRemove k) = [Event.poolRemove (layerKey img.ID)].count (.poolRemove k) := by
  rcases registerAndRelease_cases env img s with ⟨e, -, h2⟩ | ⟨-, h2⟩ <;>
  · rw [h2] at h
    simp only [Prod.mk.injEq] at h
    obtain ⟨-, -, rfl⟩ := h
    constructor
    · simp [List.count_cons]
    · simp [List.count_cons]

theorem count_grant (k key : String) :
    [Event.poolAdd key true].count (.poolAdd k true) =
      [Event.poolRemove key].count (.poolRemove k) := by
  by_cases h : key = k <;> simp [List.count_cons, h]

theorem count_grant_recurse (k key p : String) :
    [Event.poolAdd key true, Event.recurse p].count (.poolAdd k true) =
      [Event.poolRemove key].count (.poolRemove k) ∧
    [Event.poolAdd key true, Event.recurse p].count (.poolRemove k) = 0 ∧
    [Event.poolAdd key true].count (.poolRemove k) = 0 := by
  by_cases h : key = k <;> simp [List.count_cons, h]

/-- A run that returns made as many `poolRemove` calls on a key as it was
admitted on it. -/
theorem runs_counts (env : Env) (fs : Staging) (held : List String) (address : String)
    (s t : TagStore) (r : Outcome) (evs : List Event) (h : Runs env fs held address s r t evs) :
    r ≠ .blocked → ∀ k, evs.count (.poolAdd k true) = evs.count (.poolRemove k) := by
  induction h with
  | known hl => intro _ k; rfl
  | unreadable hl hr =>
    intro _ k
    rw [(count_reads env fs _ _ _ k hr).1, (count_reads env fs _ _ _ k hr).2]
  | selfWait hl hr hp hh => intro hb; exact absurd rfl hb
  | waited hl hr hp hh =>
    intro _ k
    rw [List.count_append, List.count_append, (count_reads env fs _ _ _ k hr).1,
      (count_reads env fs _ _ _ k hr).2]
    simp [List.count_cons]
  | refused hl hr hp he =>
    intro _ k
    rw [List.count_append, List.count_append, (count_reads env fs _ _ _ k hr).1,
      (count_reads env fs _ _ _ k hr).2]
    simp [List.count_cons]
  | leaf hl hr hp he hpar hreg =>
    intro _ k
    obtain ⟨c1, c2⟩ := count_registerAndRelease env _ _ _ _ _ k hreg
    simp only [List.count_append, (count_reads env fs _ _ _ k hr).1,
      (count_reads env fs _ _ _ k hr).2, c1, c2, count_grant k,
      (count_grant_recurse k _ "").2.2]
    omega
  | parentOk hl hr hp he hpar hrec hreg ih =>
    intro _ k
    obtain ⟨c1, c2⟩ := count_registerAndRelease env _ _ _ _ _ k hreg
    have := ih (by simp) k
    simp only [List.count_append, (count_reads env fs _ _ _ k hr).1,
      (count_reads env fs _ _ _ k hr).2, c1, c2, (count_grant_recurse k _ _).1,
      (count_grant_recurse k _ _).2.1, this]
    omega
  | parentErr hl hr hp he hpar hrec ih =>
    intro _ k
    have := ih (by simp) k
    have c0 : ∀ key : String, [Event.poolRemove key].count (Event.poolAdd k true) = 0 := by
      intro key; simp [List.count_cons]
    simp only [List.count_append, (count_reads env fs _ _ _ k hr).1,
      (count_reads env fs _ _ _ k hr).2, (count_grant_recurse k _ _).1,
      (count_grant_recurse k _ _).2.1, this, c0]
    omega
  | parentBlocked hl hr hp he hpar hrec ih => intro hb; exact absurd rfl hb

/-- C9 (amended): every call of `recursiveLoad` (made with the keys `held` of its
call stack in the pool) produces its result, and its pool calls are well nested:
each granted `poolAdd` is for a key the call stack does not hold and each
`poolRemove` is for the key admitted last and not yet released, so `poolRemove` is
never called for a key that was not admitted.  When the call returns, with
success or with an error, every key it or a nested call was admitted on has
been released exactly once (the call stack holds what it held before, and each
key has as many `poolRemove` calls as granted `poolAdd` calls); hence the pool
holds the keys it held before the call, less the key of another worker that the
call waited on, which its holder has released: the same keys when the call did
not wait. -/
theorem pool_key_lifecycle (env : Env) (fs : Staging) (held : List String)
    (address : String) (s : TagStore) (fuel : Nat)
    (hheld : ∀ k ∈ held, k ∈ s.pullingPool)
    (hfuel : (freeIDs env fs s.pullingPool).length < fuel) :
    ∃ r t evs, recursiveLoad env fs fuel held address s = some (r, t, evs) ∧
      disciplined held evs = true ∧
      (r ≠ .blocked → heldAfter held evs = held ∧
        t.pullingPool = unwaited evs s.pullingPool ∧
        (waitedKeys evs = [] → t.pullingPool = s.pullingPool) ∧
        ∀ k, evs.count (.poolAdd k true) = evs.count (.poolRemove k)) := by
  have hsome := recursiveLoad_isSome env fs fuel held address s hfuel
  cases hrl : recursiveLoad env fs fuel held address s with
  | none => rw [hrl] at hsome; simp at hsome
  | some x =>
    obtain ⟨r, t, evs⟩ := x
    have hrun := runs_of_recursiveLoad env fs fuel held address s r t evs hrl
    obtain ⟨p1, -, p3⟩ := runs_pool env fs held address s t r evs hrun hheld
    have hpool := (runs_frame env fs held address s t r evs hrun).2.1
    exact ⟨r, t, evs, rfl, p1, fun hb =>
      ⟨p3 hb, hpool hb, fun hw => (hpool hb).trans (unwaited_of_nil evs _ hw),
        runs_counts env fs held address s t r evs hrun hb⟩⟩

/-- Witness of C9: the load of the child `b` of the staged chain, in the empty
store. -/
theorem pool_key_lifecycle_witness :
    (∀ k ∈ ([] : List String), k ∈ emptyStore.pullingPool) ∧
      (freeIDs sampleEnv chainStaging emptyStore.pullingPool).length < 3 ∧
      ∃ r t evs, recursiveLoad sampleEnv chainStaging 3 [] "b" emptyStore = some (r, t, evs) ∧
        disciplined [] evs = true ∧
        (r ≠ .blocked → heldAfter [] evs = [] ∧
          t.pullingPool = unwaited evs emptyStore.pullingPool ∧
          (waitedKeys evs = [] → t.pullingPool = emptyStore.pullingPool) ∧
          ∀ k, evs.count (.poolAdd k true) = evs.count (.poolRemove k)) :=
  ⟨by simp, by decide,
    pool_key_lifecycle sampleEnv chainStaging [] "b" emptyStore 3 (by simp) (by decide)⟩

/-- Counterexample to C9 as stated: the key of image `a` is held by another
worker; the call on `a` is not admitted, waits on the channel and returns
success, and the pool, which held `layer:a` before the call, does not hold it
after: its holder has released it. -/
theorem pool_differs_after_wait :
    storeWithForeignKeyA.pullingPool = ["layer:a"] ∧
      recursiveLoad sampleEnv chainStaging 1 [] "a" storeWithForeignKeyA =
        some (.ok, ⟨[], [], []⟩, [.readJSON "a", .openLayer "a",
          .poolAdd "layer:a" false, .wait "layer:a"]) ∧
      (recursiveLoad sampleEnv chainStaging 1 [] "a" storeWithForeignKeyA).map
          (fun x => decide (x.2.1.pullingPool = storeWithForeignKeyA.pullingPool)) =
        some false := by
  decide

/-! ## The depth of the recursion, and when a call returns -/

theorem runsAll_of_loadDirs (env : Env) (fs : Staging) (fuel : Nat) :
    ∀ (ds : List DirEntry) (s : TagStore) (r : Outcome) (t : TagStore) (evs : List Event),
      loadDirs env fs fuel ds s = some (r, t, evs) → RunsAll env fs ds s r t evs := by
  intro ds
  induction ds with
  | nil =>
    intro s r t evs h
    simp only [loadDirs, Option.some.injEq, Prod.mk.injEq] at h
    obtain ⟨rfl, rfl, rfl⟩ := h
    exact .done
  | cons d ds ih =>
    intro s r t evs h
    rw [loadDirs] at h
    cases hd : d.isDir with
    | false =>
      simp only [hd, Bool.false_eq_true, if_false] at h
      exact .skip hd (ih _ _ _ _ h)
    | true =>
      simp only [hd, if_true] at h
      cases hrl : recursiveLoad env fs fuel [] d.name s with
      | none => rw [hrl] at h; simp at h
      | some x =>
        obtain ⟨r1, s1, evs1⟩ := x
        rw [hrl] at h
        have hrun := runs_of_recursiveLoad env fs fuel [] d.name s r1 s1 evs1 hrl
        cases r1 with
        | ok =>
          simp only at h
          cases hrest : loadDirs env fs fuel ds s1 with
          | none => rw [hrest] at h; simp at h
          | some y =>
            obtain ⟨r2, s2, evs2⟩ := y
            rw [hrest] at h
            simp only [Option.some.injEq, Prod.mk.injEq] at h
            obtain ⟨rfl, rfl, rfl⟩ := h
            exact .next hd hrun (ih _ _ _ _ hrest)
        | err e =>
          simp only [Option.some.injEq, Prod.mk.injEq] at h
          obtain ⟨rfl, rfl, rfl⟩ := h
          exact .stop hd hrun (by simp)
        | blocked =>
          simp only [Option.some.injEq, Prod.mk.injEq] at h
          obtain ⟨rfl, rfl, rfl⟩ := h
          exact .stop hd hrun (by simp)

theorem loadDirs_isSome (env : Env) (fs : Staging) (fuel : Nat)
    (hfuel : (stagedIDs env fs).dedup.length < fuel) :
    ∀ (ds : List DirEntry) (s : TagStore), (loadDirs env fs fuel ds s).isSome = true := by
  intro ds
  induction ds with
  | nil => intro s; rfl
  | cons d ds ih =>
    intro s
    rw [loadDirs]
    cases hd : d.isDir with
    | false => simpa using ih s
    | true =>
      simp only [if_true]
      have hsome := recursiveLoad_isSome env fs fuel [] d.name s
        (lt_of_le_of_lt (freeIDs_length_le env fs s.pullingPool) hfuel)
      cases hrl : recursiveLoad env fs fuel [] d.name s with
      | none => rw [hrl] at hsome; simp at hsome
      | some x =>
        obtain ⟨r1, s1, evs1⟩ := x
        cases r1 with
        | ok =>
          simp only
          have h2 := ih s1
          cases hrest : loadDirs env fs fuel ds s1 with
          | none => rw [hrest] at h2; simp at h2
          | some y => simp
        | err e => simp
        | blocked => simp

/-- The loop leaves the tag index alone, returns the pool as it found it unless
it blocks (less the keys of other workers it waited on), changes the graph only
by its successful `Register` calls, and calls neither `SetLoad` nor the
extractor. -/
theorem runsAll_frame (env : Env) (fs : Staging) (ds : List DirEntry) (s t : TagStore)
    (r : Outcome) (evs : List Event) (h : RunsAll env fs ds s r t evs) :
    t.Repositories = s.Repositories ∧
      (r ≠ .blocked → t.pullingPool = unwaited evs s.pullingPool) ∧
      t.graph = graphAfter s.graph evs ∧ setLoadCalls evs = [] ∧ untarCalls evs = [] := by
  induction h with
  | done => exact ⟨rfl, fun _ => (unwaited_of_nil [] _ rfl).symm, rfl, rfl, rfl⟩
  | skip hd hrest ih => exact ih
  | stop hd hrun hr =>
    obtain ⟨f1, f2, f3⟩ := runs_frame env fs _ _ _ _ _ _ hrun
    obtain ⟨c1, c2⟩ := runs_no_setLoad env fs _ _ _ _ _ _ hrun
    exact ⟨f1, f2, f3, c1, c2⟩
  | next hd hrun hrest ih =>
    obtain ⟨f1, f2, f3⟩ := runs_frame env fs _ _ _ _ _ _ hrun
    obtain ⟨c1, c2⟩ := runs_no_setLoad env fs _ _ _ _ _ _ hrun
    obtain ⟨i1, i2, i3, i4, i5⟩ := ih
    refine ⟨i1.trans f1, fun hb => ?_, ?_, ?_, ?_⟩
    · rw [i2 hb, f2 (by simp), unwaited_append]
    · rw [graphAfter_append, ← f3, i3]
    · rw [setLoadCalls_append, c1, i4]; rfl
    · rw [untarCalls_append, c2, i5]; rfl

theorem anyID_graphAfter_mono (id : String) (evs : List Event) :
    ∀ g : List Image, g.any (fun o => o.ID == id) = true →
      (graphAfter g evs).any (fun o => o.ID == id) = true := by
  induction evs with
  | nil => intro g h; exact h
  | cons ev evs ih =>
    intro g h
    cases ev with
    | register img err =>
      cases err with
      | none =>
        apply ih
        rw [anyID_insertImage, h, Bool.or_true]
      | some e => exact ih g h
    | _ => exact ih g h

/-- An ID in the graph after the calls `evs` was in the graph before or is the
ID of a record handed to `Register`. -/
theorem anyID_graphAfter_source (id : String) (evs : List Event) :
    ∀ g : List Image, (graphAfter g evs).any (fun o => o.ID == id) = true →
      g.any (fun o => o.ID == id) = true ∨ ∃ img ∈ registerCalls evs, img.ID = id := by
  induction evs with
  | nil => intro g h; exact Or.inl h
  | cons ev evs ih =>
    intro g h
    cases ev with
    | register img err =>
      cases err with
      | none =>
        rcases ih _ h with h1 | ⟨i, hi, hid⟩
        · rw [anyID_insertImage, Bool.or_eq_true] at h1
          rcases h1 with h1 | h1
          · exact Or.inr ⟨img, by rw [registerCalls_cons]; simp, by simpa using h1⟩
          · exact Or.inl h1
        · exact Or.inr ⟨i, by rw [registerCalls_cons]; simp [hi], hid⟩
      | some e =>
        rcases ih _ h with h1 | ⟨i, hi, hid⟩
        · exact Or.inl h1
        · exact Or.inr ⟨i, by rw [registerCalls_cons]; simp [hi], hid⟩
    | _ =>
      rcases ih _ h with h1 | ⟨i, hi, hid⟩
      · exact Or.inl h1
      · exact Or.inr ⟨i, by rw [registerCalls_cons]; simpa using hi, hid⟩

theorem lookup_false_of_later (s s1 : TagStore) (evs : List Event) (a : String)
    (hg : s1.graph = graphAfter s.graph evs) (h : LookupImage s1 a = false) :
    LookupImage s a = false := by
  cases hl : LookupImage s a with
  | false => rfl
  | true =>
    have := anyID_graphAfter_mono a evs s.graph hl
    rw [← hg] at this
    unfold LookupImage Exists at h
    rw [this] at h
    cases h

/-- Every record the loop hands to `Register` was read and validated from a
staged address that the graph did not know when the loop started. -/
theorem runsAll_registerCalls (env : Env) (fs : Staging) (ds : List DirEntry) (s t : TagStore)
    (r : Outcome) (evs : List Event) (h : RunsAll env fs ds s r t evs) :
    ∀ img ∈ registerCalls evs, ∃ a reads,
      readStaged env fs a = (.ok img, reads) ∧ LookupImage s a = false := by
  induction h with
  | done => intro img hi; simp [registerCalls_nil] at hi
  | skip hd hrest ih => exact ih
  | stop hd hrun hr => exact runs_registerCalls env fs _ _ _ _ _ _ hrun
  | next hd hrun hrest ih =>
    intro img hi
    rw [registerCalls_append, List.mem_append] at hi
    rcases hi with hi | hi
    · exact runs_registerCalls env fs _ _ _ _ _ _ hrun img hi
    · obtain ⟨a, reads, h1, h2⟩ := ih img hi
      exact ⟨a, reads, h1,
        lookup_false_of_later _ _ _ a (runs_frame env fs _ _ _ _ _ _ hrun).2.2 h2⟩

/-! ## The tag binder -/

theorem setLoad_forced (env : Env) (s : TagStore) (repo tag id : String) :
    (∃ e, env.setLoadErr s.graph repo tag id = some e ∧
      SetLoad env s repo tag id true = (some e, s)) ∨
    (env.setLoadErr s.graph repo tag id = none ∧
      SetLoad env s repo tag id true = (none, bindTag s repo tag id)) := by
  unfold SetLoad
  cases h : env.setLoadErr s.graph repo tag id with
  | some e => exact Or.inl ⟨e, rfl, rfl⟩
  | none => exact Or.inr ⟨rfl, by simp⟩

theorem lookup_filter_ne (k k1 : String × String) (hne : k ≠ k1) :
    ∀ l : List ((String × String) × String),
      (l.filter (fun b => b.1 != k1)).lookup k = l.lookup k := by
  intro l
  induction l with
  | nil => rfl
  | cons b l ih =>
    obtain ⟨kb, vb⟩ := b
    by_cases hb : kb = k1
    · subst hb
      have h1 : (k == kb) = false := by simpa using hne
      simp only [List.filter_cons, bne_self_eq_false, Bool.false_eq_true, if_false,
        List.lookup_cons, h1, ih]
    · have h2 : (kb != k1) = true := by simpa using hb
      simp only [List.filter_cons, h2, if_true, List.lookup_cons, ih]

theorem lookup_bind (l : List ((String × String) × String)) (k k1 : String × String)
    (v : String) :
    (((k1, v) :: l.filter (fun b => b.1 != k1)).lookup k) =
      if k = k1 then some v else l.lookup k := by
  by_cases h : k = k1
  · subst h; simp [List.lookup_cons]
  · have h1 : (k == k1) = false := by simpa using h
    simp only [List.lookup_cons, h1, h, if_false]
    exact lookup_filter_ne k k1 h l

theorem lastBinding_cons (k1 : String × String) (v : String)
    (rest : List ((String × String) × String)) (k : String × String) :
    lastBinding ((k1, v) :: rest) k =
      match lastBinding rest k with
      | some w => some w
      | none => if k = k1 then some v else none := rfl

theorem lastBinding_append (a b : List ((String × String) × String)) (k : String × String) :
    lastBinding (a ++ b) k =
      match lastBinding b k with
      | some w => some w
      | none => lastBinding a k := by
  induction a with
  | nil =>
    rw [List.nil_append]
    cases lastBinding b k <;> rfl
  | cons x a ih =>
    obtain ⟨k1, v⟩ := x
    rw [List.cons_append, lastBinding_cons, ih, lastBinding_cons]
    cases lastBinding b k <;> rfl

/-- The inner loop over the tags of one repository: it touches only the tag
index, it succeeds exactly when no `SetLoad` call fails, and after success it has
made one forced `SetLoad` call per tag, in order, each overwriting the binding of
its (repo, tag). -/
theorem setTags_spec (env : Env) (repo : String) :
    ∀ (tm : List (String × String)) (s : TagStore) (r : Outcome) (t : TagStore)
      (evs : List Event), setTags env repo tm s = (r, t, evs) →
      t.graph = s.graph ∧ t.pullingPool = s.pullingPool ∧ registerCalls evs = [] ∧
        untarCalls evs = [] ∧ r ≠ .blocked ∧
        (r = .ok ↔ ∀ p ∈ tm, env.setLoadErr s.graph repo p.1 p.2 = none) ∧
        (r = .ok → setLoadCalls evs = tm.map (fun p => ⟨repo, p.1, p.2, true⟩) ∧
          ∀ k, t.Repositories.lookup k =
            match lastBinding (tm.map (fun p => ((repo, p.1), p.2))) k with
            | some w => some w
            | none => s.Repositories.lookup k) := by
  intro tm
  induction tm with
  | nil =>
    intro s r t evs h
    simp only [setTags, Prod.mk.injEq] at h
    obtain ⟨rfl, rfl, rfl⟩ := h
    refine ⟨rfl, rfl, rfl, rfl, by simp, by simp, fun _ => ⟨rfl, fun k => rfl⟩⟩
  | cons p tm ih =>
    intro s r t evs h
    obtain ⟨tag, id⟩ := p
    rw [setTags] at h
    rcases setLoad_forced env s repo tag id with ⟨e, he, hs⟩ | ⟨he, hs⟩
    · rw [hs] at h
      simp only [Prod.mk.injEq] at h
      obtain ⟨rfl, rfl, rfl⟩ := h
      refine ⟨rfl, rfl, rfl, rfl, by simp, ?_, fun hc => by cases hc⟩
      constructor
      · intro hc; cases hc
      · intro hall
        have := hall (tag, id) (List.mem_cons_self _ _)
        rw [he] at this
        cases this
    · rw [hs] at h
      simp only at h
      rcases hrest : setTags env repo tm (bindTag s repo tag id) with ⟨r2, t2, evs2⟩
      rw [hrest] at h
      simp only [Prod.mk.injEq] at h
      obtain ⟨rfl, rfl, rfl⟩ := h
      obtain ⟨i1, i2, i3, i4, i5, i6, i7⟩ := ih _ _ _ _ hrest
      refine ⟨i1, i2, ?_, ?_, i5, ?_, ?_⟩
      · rw [registerCalls_cons, i3]; rfl
      · show untarCalls ([_] ++ evs2) = []
        rw [untarCalls_append, i4]; rfl
      · rw [i6]
        constructor
        · intro hall q hq
          rcases List.mem_cons.mp hq with rfl | hq
          · exact he
          · exact hall q hq
        · intro hall q hq
          exact hall q (List.mem_cons_of_mem _ hq)
      · intro hok
        obtain ⟨j1, j2⟩ := i7 hok
        constructor
        · show setLoadCalls ([_] ++ evs2) = _
          rw [setLoadCalls_append, j1]; rfl
        · intro k
          rw [j2 k]
          rw [List.map_cons, lastBinding_cons]
          cases lastBinding (tm.map (fun p => ((repo, p.1), p.2))) k with
          | some w => rfl
          | none =>
            show ((bindTag s repo tag id).Repositories.lookup k) = _
            simp only [bindTag]
            rw [lookup_bind]
            by_cases hk : k = (repo, tag) <;> simp [hk]

/-- The outer loop over the repositories, as `setTags_spec`, over all bindings of
the index. -/
theorem setRepositories_spec (env : Env) :
    ∀ (idx : List (String × List (String × String))) (s : TagStore) (r : Outcome)
      (t : TagStore) (evs : List Event), setRepositories env idx s = (r, t, evs) →
      t.graph = s.graph ∧ t.pullingPool = s.pullingPool ∧ registerCalls evs = [] ∧
        untarCalls evs = [] ∧ r ≠ .blocked ∧
        (r = .ok ↔ ∀ b ∈ bindings idx, env.setLoadErr s.graph b.1.1 b.1.2 b.2 = none) ∧
        (r = .ok → setLoadCalls evs = (bindings idx).map (fun b => ⟨b.1.1, b.1.2, b.2, true⟩) ∧
          ∀ k, t.Repositories.lookup k =
            match lastBinding (bindings idx) k with
            | some w => some w
            | none => s.Repositories.lookup k) := by
  intro idx
  induction idx with
  | nil =>
    intro s r t evs h
    simp only [setRepositories, Prod.mk.injEq] at h
    obtain ⟨rfl, rfl, rfl⟩ := h
    refine ⟨rfl, rfl, rfl, rfl, by simp, by simp [bindings], fun _ => ⟨rfl, fun k => rfl⟩⟩
  | cons p idx ih =>
    intro s r t evs h
    obtain ⟨repo, tm⟩ := p
    rw [setRepositories] at h
    rcases htags : setTags env repo tm s with ⟨r1, s1, evs1⟩
    obtain ⟨a1, a2, a3, a4, a5, a6, a7⟩ := setTags_spec env repo tm s r1 s1 evs1 htags
    rw [htags] at h
    have hmem : ∀ q : (String × String) × String,
        q ∈ tm.map (fun p => ((repo, p.1), p.2)) ↔ ∃ p ∈ tm, q = ((repo, p.1), p.2) := by
      intro q
      rw [List.mem_map]
      constructor
      · rintro ⟨p, hp, rfl⟩; exact ⟨p, hp, rfl⟩
      · rintro ⟨p, hp, rfl⟩; exact ⟨p, hp, rfl⟩
    cases r1 with
    | ok =>
      simp only at h
      rcases hrest : setRepositories env idx s1 with ⟨r2, t2, evs2⟩
      rw [hrest] at h
      simp only [Prod.mk.injEq] at h
      obtain ⟨rfl, rfl, rfl⟩ := h
      obtain ⟨i1, i2, i3, i4, i5, i6, i7⟩ := ih _ _ _ _ hrest
      obtain ⟨b1, b2⟩ := a7 rfl
      refine ⟨i1.trans a1, i2.trans a2, ?_, ?_, i5, ?_, ?_⟩
      · rw [registerCalls_append, a3, i3]; rfl
      · rw [untarCalls_append, a4, i4]; rfl
      · rw [i6, a1]
        constructor
        · intro hall b hb
          simp only [bindings, List.mem_append] at hb
          rcases hb with hb | hb
          · obtain ⟨p, hp, rfl⟩ := (hmem b).mp hb
            exact (a6.mp rfl) p hp
          · exact hall b hb
        · intro hall b hb
          exact hall b (by simp only [bindings, List.mem_append]; exact Or.inr hb)
      · intro hok
        obtain ⟨j1, j2⟩ := i7 hok
        constructor
        · rw [setLoadCalls_append, b1, j1]
          simp only [bindings, List.map_append, List.map_map]
          rfl
        · intro k
          rw [j2 k, b2 k]
          simp only [bindings]
          rw [lastBinding_append]
          cases lastBinding (bindings idx) k <;> rfl
    | err e =>
      simp only [Prod.mk.injEq] at h
      obtain ⟨rfl, rfl, rfl⟩ := h
      refine ⟨a1, a2, a3, a4, a5, ?_, fun hc => by cases hc⟩
      constructor
      · intro hc; cases hc
      · intro hall
        have : Outcome.err e = .ok := a6.mpr (fun p hp =>
          hall ((repo, p.1), p.2) (by
            simp only [bindings, List.mem_append]
            exact Or.inl ((hmem _).mpr ⟨p, hp, rfl⟩)))
        cases this
    | blocked => exact absurd rfl a5

/-- Opening and decoding `repositories` and binding the tags: as
`setRepositories_spec`; without a decoded index there is no `SetLoad` call. -/
theorem loadRepositories_frame (env : Env) (fs : Staging) (s t : TagStore) (r : Outcome)
    (evs : List Event) (h : loadRepositories env fs s = (r, t, evs)) :
    t.graph = s.graph ∧ t.pullingPool = s.pullingPool ∧ registerCalls evs = [] ∧
      untarCalls evs = [] ∧ r ≠ .blocked := by
  unfold loadRepositories at h
  split at h
  · simp only [Prod.mk.injEq] at h; obtain ⟨rfl, rfl, rfl⟩ := h
    exact ⟨rfl, rfl, rfl, rfl, by simp⟩
  · simp only [Prod.mk.injEq] at h; obtain ⟨rfl, rfl, rfl⟩ := h
    exact ⟨rfl, rfl, rfl, rfl, by simp⟩
  · simp only [Prod.mk.injEq] at h; obtain ⟨rfl, rfl, rfl⟩ := h
    exact ⟨rfl, rfl, rfl, rfl, by simp⟩
  · obtain ⟨h1, h2, h3, h4, h5, -, -⟩ := setRepositories_spec env _ _ _ _ _ h
    exact ⟨h1, h2, h3, h4, h5⟩

/-! ## The shape of a `Load` -/

/-- The ways a `Load` ends: with an error before the staged directories are
visited, the store untouched; in the loop over the directories; or, after the
loop succeeded, in the tag binder. -/
theorem load_cases (env : Env) (inTar : Archive) (s t : TagStore) (r : Outcome)
    (evs : List Event) (h : Load env inTar s = some (r, t, evs)) :
    (∃ e, r = .err e ∧ t = s ∧ (evs = [] ∨ evs = [.untar (excludesOf s)])) ∨
    ∃ fs, Untar inTar (excludesOf s) = .ok fs ∧
      ((r ≠ .ok ∧ RunsAll env fs (topLevel fs) s r t evs.tail ∧
          evs = .untar (excludesOf s) :: evs.tail) ∨
        ∃ s1 evs1 evs2, RunsAll env fs (topLevel fs) s .ok s1 evs1 ∧
          loadRepositories env fs s1 = (r, t, evs2) ∧
          evs = .untar (excludesOf s) :: (evs1 ++ evs2)) := by
  unfold Load at h
  split at h
  · simp only [Option.some.injEq, Prod.mk.injEq] at h; obtain ⟨rfl, rfl, rfl⟩ := h
    exact Or.inl ⟨_, rfl, rfl, Or.inl rfl⟩
  · split at h
    · simp only [Option.some.injEq, Prod.mk.injEq] at h; obtain ⟨rfl, rfl, rfl⟩ := h
      exact Or.inl ⟨_, rfl, rfl, Or.inl rfl⟩
    · split at h
      · simp only [Option.some.injEq, Prod.mk.injEq] at h; obtain ⟨rfl, rfl, rfl⟩ := h
        exact Or.inl ⟨_, rfl, rfl, Or.inl rfl⟩
      · split at h
        · simp only [Option.some.injEq, Prod.mk.injEq] at h; obtain ⟨rfl, rfl, rfl⟩ := h
          exact Or.inl ⟨_, rfl, rfl, Or.inr rfl⟩
        · rename_i fs hfs
          split at h
          · simp only [Option.some.injEq, Prod.mk.injEq] at h; obtain ⟨rfl, rfl, rfl⟩ := h
            exact Or.inl ⟨_, rfl, rfl, Or.inr rfl⟩
          · cases hld : loadDirs env fs (fs.entries.length + 1) (topLevel fs) s with
            | none => rw [hld] at h; simp at h
            | some x =>
              obtain ⟨r1, s1, evs1⟩ := x
              rw [hld] at h
              have hall := runsAll_of_loadDirs env fs _ _ _ _ _ _ hld
              refine Or.inr ⟨fs, hfs, ?_⟩
              cases r1 with
              | ok =>
                simp only at h
                rcases hrep : loadRepositories env fs s1 with ⟨r2, t2, evs2⟩
                rw [hrep] at h
                simp only [Option.some.injEq, Prod.mk.injEq] at h
                obtain ⟨rfl, rfl, rfl⟩ := h
                exact Or.inr ⟨s1, evs1, evs2, hall, hrep, rfl⟩
              | err e =>
                simp only [Option.some.injEq, Prod.mk.injEq] at h
                obtain ⟨rfl, rfl, rfl⟩ := h
                exact Or.inl ⟨by simp, hall, rfl⟩
              | blocked =>
                simp only [Option.some.injEq, Prod.mk.injEq] at h
                obtain ⟨rfl, rfl, rfl⟩ := h
                exact Or.inl ⟨by simp, hall, rfl⟩

/-- The method `Load` always produces its result: the recursion bound it hands to
`recursiveLoad` is large enough. -/
theorem load_isSome (env : Env) (inTar : Archive) (s : TagStore) :
    (Load env inTar s).isSome = true := by
  unfold Load
  split
  · rfl
  · split
    · rfl
    · split
      · rfl
      · split
        · rfl
        · rename_i fs hfs
          split
          · rfl
          · have hsome := loadDirs_isSome env fs (fs.entries.length + 1)
              (Nat.lt_succ_of_le (stagedIDs_length_le env fs)) (topLevel fs) s
            cases hld : loadDirs env fs (fs.entries.length + 1) (topLevel fs) s with
            | none => rw [hld] at hsome; simp at hsome
            | some x =>
              obtain ⟨r1, s1, evs1⟩ := x
              cases r1 <;> simp

/-! ## Exclusion -/

theorem excludesOf_eq (s : TagStore) :
    excludesOf s = (s.graph.map (fun img => img.ID)).dedup := by
  unfold excludesOf Map
  rw [List.map_filterMap]
  have hsome : ∀ id ∈ (s.graph.map (fun img => img.ID)).dedup,
      Option.map Prod.fst
        ((s.graph.find? (fun img => img.ID == id)).map (fun img => (id, img))) = some id := by
    intro id hid
    rw [List.mem_dedup, List.mem_map] at hid
    obtain ⟨img, himg, rfl⟩ := hid
    have hfound : (s.graph.find? (fun o => o.ID == img.ID)).isSome = true := by
      rw [List.find?_isSome]
      exact ⟨img, himg, by simp⟩
    cases hf : s.graph.find? (fun o => o.ID == img.ID) with
    | none => rw [hf] at hfound; cases hfound
    | some o => rfl
  rw [List.filterMap_congr hsome, List.filterMap_some]

theorem mem_excludesOf (s : TagStore) (id : String) :
    id ∈ excludesOf s ↔ Exists s id = true := by
  rw [excludesOf_eq, List.mem_dedup, List.mem_map]
  unfold Exists
  rw [List.any_eq_true]
  constructor
  · rintro ⟨img, h, rfl⟩; exact ⟨img, h, by simp⟩
  · rintro ⟨img, h, hid⟩; exact ⟨img, h, by simpa using hid⟩

theorem untar_ok (inTar : Archive) (excludes : List String) (fs : Staging)
    (h : Untar inTar excludes = .ok fs) :
    fs.entries = inTar.content.entries.filter
        (fun d => isOutside d.name || !(excludes.any (fun p => matchesPattern p d.name))) ∧
      fs.repositories = inTar.content.repositories := by
  unfold Untar at h
  split at h
  · cases h
  · simp only [Except.ok.injEq] at h
    subst h
    exact ⟨rfl, rfl⟩

/-- C6: the exclude set that `Load` hands to the extractor is the list of keys of
`graph.Map()`: it holds every resident ID, each once, and nothing else; `Load`
makes at most that one extractor call.  For an ID resident in the store,
`recursiveLoad` on that ID returns success with the store unchanged and without
a single call: no read of `json` or `layer.tar`, no pool call and no `Register`. -/
theorem exclusion_correctness (env : Env) (inTar : Archive) (s : TagStore) :
    excludesOf s = (Map s).map Prod.fst ∧ (excludesOf s).Nodup ∧
      (∀ id, id ∈ excludesOf s ↔ Exists s id = true) ∧
      (∃ r t evs, Load env inTar s = some (r, t, evs) ∧
        (untarCalls evs = [excludesOf s] ∨ evs = [])) ∧
      (∀ (fs : Staging) (fuel : Nat) (held : List String) (id : String),
        Exists s id = true → recursiveLoad env fs (fuel + 1) held id s = some (.ok, s, [])) := by
  refine ⟨rfl, ?_, mem_excludesOf s, ?_, ?_⟩
  · rw [excludesOf_eq]; exact List.nodup_dedup _
  · have hsome := load_isSome env inTar s
    cases hld : Load env inTar s with
    | none => rw [hld] at hsome; cases hsome
    | some x =>
      obtain ⟨r, t, evs⟩ := x
      refine ⟨r, t, evs, rfl, ?_⟩
      rcases load_cases env inTar s t r evs hld with ⟨e, -, -, h | h⟩ | ⟨fs, -, h⟩
      · exact Or.inr h
      · exact Or.inl (by rw [h]; rfl)
      · rcases h with ⟨-, hall, hevs⟩ | ⟨s1, evs1, evs2, hall, hrep, hevs⟩
        · left
          rw [hevs]
          show untarCalls ([Event.untar (excludesOf s)] ++ evs.tail) = _
          rw [untarCalls_append, (runsAll_frame env fs _ _ _ _ _ hall).2.2.2.2]; rfl
        · left
          rw [hevs]
          show untarCalls ([Event.untar (excludesOf s)] ++ (evs1 ++ evs2)) = _
          rw [untarCalls_append, untarCalls_append,
            (runsAll_frame env fs _ _ _ _ _ hall).2.2.2.2,
            (loadRepositories_frame env fs _ _ _ _ hrep).2.2.2.1]; rfl
  · intro fs fuel held id hid
    rw [recursiveLoad]
    simp [LookupImage, hid]

/-- Witness of C6: the chain bundle loaded into a store that holds `a`. -/
theorem exclusion_correctness_witness :
    excludesOf storeWithA = ["a"] ∧
      Load sampleEnv chainBundle storeWithA =
        some (.ok, ⟨[⟨"b", "a"⟩, ⟨"a", ""⟩], [], [(("app", "v1"), "b")]⟩,
          [.untar ["a"], .readJSON "b", .openLayer "b", .poolAdd "layer:b" true,
            .register ⟨"b", "a"⟩ none, .poolRemove "layer:b",
            .setLoad "app" "v1" "b" true none]) ∧
      recursiveLoad sampleEnv chainStaging 1 [] "a" storeWithA = some (.ok, storeWithA, []) :=
  ⟨by decide, by decide,
    (exclusion_correctness sampleEnv chainBundle storeWithA).2.2.2.2 chainStaging 0 [] "a"
      (by decide)⟩

/-! ## Directory names and metadata IDs -/

/-- Where the staged directories are named by their IDs, the record read at a
clean address carries the address as ID. -/
theorem readStaged_name (env : Env) (fs : Staging) (address : String) (img : Image)
    (reads : List Event) (hnames : namesAreIDs env fs = true)
    (hkey : isClean env address = true)
    (h : readStaged env fs address = (.ok img, reads)) : img.ID = address := by
  obtain ⟨d, hmem, hname, hm⟩ := readStaged_metadata env fs address img reads h
  unfold isClean at hkey
  simp only [Bool.and_eq_true, beq_iff_eq, Bool.not_eq_true'] at hkey
  rw [hkey.1] at hname
  unfold namesAreIDs at hnames
  rw [List.all_eq_true] at hnames
  have := hnames d hmem
  rw [DirEntry.metadataID, hm, hname, hkey.2] at this
  simp only [Option.map_some', Bool.false_or, beq_iff_eq] at this
  exact this

theorem namesAreIDs_untar (env : Env) (inTar : Archive) (excludes : List String) (fs : Staging)
    (hnames : namesAreIDs env inTar.content = true) (h : Untar inTar excludes = .ok fs) :
    namesAreIDs env fs = true := by
  obtain ⟨he, -⟩ := untar_ok inTar excludes fs h
  unfold namesAreIDs at hnames ⊢
  rw [List.all_eq_true] at hnames ⊢
  intro d hd
  rw [he] at hd
  exact hnames d (List.mem_filter.mp hd).1

theorem parentsAreClean_untar (env : Env) (inTar : Archive) (excludes : List String)
    (fs : Staging) (hclean : parentsAreClean env inTar.content = true)
    (h : Untar inTar excludes = .ok fs) : parentsAreClean env fs = true := by
  obtain ⟨he, -⟩ := untar_ok inTar excludes fs h
  unfold parentsAreClean at hclean ⊢
  rw [List.all_eq_true] at hclean ⊢
  intro d hd
  rw [he] at hd
  exact hclean d (List.mem_filter.mp hd).1

/-- The extractor keeps the directory of every address that matches none of the
exclude patterns. -/
theorem dir_untar (env : Env) (inTar : Archive) (excludes : List String) (fs : Staging)
    (address : String) (h : Untar inTar excludes = .ok fs)
    (hfree : excludes.any (fun p => matchesPattern p (pathKey env address)) = false) :
    fs.dir env address = inTar.content.dir env address := by
  obtain ⟨he, -⟩ := untar_ok inTar excludes fs h
  unfold Staging.dir
  rw [he]
  generalize inTar.content.entries = l
  induction l with
  | nil => rfl
  | cons d l ih =>
    by_cases hd : d.name = pathKey env address
    · have hx : (isOutside d.name ||
          !(excludes.any (fun p => matchesPattern p d.name))) = true := by
        rw [hd, hfree]; simp
      rw [List.filter_cons, if_pos hx, List.find?_cons, List.find?_cons, ih]
    · have hp : (d.isDir && d.name == pathKey env address) = false := by simp [hd]
      rw [List.find?_cons, hp]
      by_cases hx : (isOutside d.name ||
          !(excludes.any (fun p => matchesPattern p d.name))) = true
      · rw [List.filter_cons, if_pos hx, List.find?_cons, hp]
        exact ih
      · rw [List.filter_cons, if_neg hx]
        exact ih

/-- A plain name that is not a resident ID matches none of the exclude
patterns. -/
theorem excludes_free_plain (s : TagStore) (name : String) (hplain : isPlain name = true)
    (hnew : Exists s name = false) :
    (excludesOf s).any (fun p => matchesPattern p name) = false := by
  rw [List.any_eq_false]
  intro p hp hm
  rw [matchesPattern_plain p name hplain] at hm
  subst hm
  rw [mem_excludesOf, hnew] at hp
  cases hp

/-- The extractor leaves no entry below `repo` whose name is a resident ID. -/
theorem untar_not_resident (inTar : Archive) (s : TagStore) (fs : Staging)
    (h : Untar inTar (excludesOf s) = .ok fs) (d : DirEntry) (hd : d ∈ fs.entries)
    (hin : isOutside d.name = false) :
    Exists s d.name = false := by
  obtain ⟨he, -⟩ := untar_ok inTar _ fs h
  rw [he, List.mem_filter] at hd
  cases hex : Exists s d.name with
  | false => rfl
  | true =>
    exfalso
    have hany : (excludesOf s).any (fun p => matchesPattern p d.name) = true := by
      rw [List.any_eq_true]
      exact ⟨d.name, (mem_excludesOf s d.name).mpr hex, matchesPattern_self d.name⟩
    rw [hany, hin] at hd
    exact absurd hd.2 (by simp)

/-- Where the staged parents are clean paths, the parent a call recurses on is a
clean path below `repo`. -/
theorem parent_clean (env : Env) (fs : Staging) (hclean : parentsAreClean env fs = true)
    (address : String) (img : Image) (reads : List Event)
    (hr : readStaged env fs address = (.ok img, reads)) (s : TagStore)
    (hpar : (img.Parent != "" && !(Exists s img.Parent)) = true) :
    isClean env img.Parent = true := by
  obtain ⟨d, hmem, -, hm⟩ := readStaged_metadata env fs address img reads hr
  unfold parentsAreClean at hclean
  rw [List.all_eq_true] at hclean
  have := hclean d hmem
  rw [hm] at this
  simp only [Bool.or_eq_true, beq_iff_eq] at this
  simp only [Bool.and_eq_true, bne_iff_ne, ne_eq] at hpar
  rcases this with h | h
  · exact absurd h hpar.1
  · exact h

/-- A key in the pool of the nested call is held by the nested call stack. -/
theorem held_grant (s : TagStore) (held : List String) (key : String)
    (hsub : ∀ k ∈ s.pullingPool, k ∈ held) :
    ∀ k ∈ (grantKey s key).pullingPool, k ∈ key :: held := by
  intro k hk
  simp only [grantKey] at hk
  rcases List.mem_cons.mp hk with rfl | hk
  · exact List.mem_cons_self _ _
  · exact List.mem_cons_of_mem _ (hsub _ hk)

theorem topLevel_plain (fs : Staging) : ∀ d ∈ topLevel fs, isPlain d.name = true := by
  intro d hd
  unfold topLevel at hd
  exact (List.mem_filter.mp hd).2

/-- Where the staged directories are named by their IDs and the parents are
clean paths, a run on a clean address hands to `Register` no record whose ID was
resident when the run started. -/
theorem runs_fresh (env : Env) (fs : Staging) (hnames : namesAreIDs env fs = true)
    (hclean : parentsAreClean env fs = true) (held : List String) (address : String)
    (s t : TagStore) (r : Outcome) (evs : List Event) (h : Runs env fs held address s r t evs) :
    isClean env address = true → ∀ img ∈ registerCalls evs, Exists s img.ID = false := by
  induction h with
  | known hl => intro _ img hi; simp only [registerCalls_nil, List.not_mem_nil] at hi
  | unreadable hl hr =>
    intro _ img hi; rw [registerCalls_reads env fs _ _ _ hr] at hi; simp at hi
  | selfWait hl hr hp hh =>
    intro _ img hi
    rw [registerCalls_append, registerCalls_reads env fs _ _ _ hr] at hi
    simp only [registerCalls_cons, registerCalls_nil, List.nil_append, List.append_nil,
      List.mem_append, List.mem_singleton, List.not_mem_nil, false_or, or_false] at hi
  | waited hl hr hp hh =>
    intro _ img hi
    rw [registerCalls_append, registerCalls_reads env fs _ _ _ hr] at hi
    simp only [registerCalls_cons, registerCalls_nil, List.nil_append, List.append_nil,
      List.mem_append, List.mem_singleton, List.not_mem_nil, false_or, or_false] at hi
  | refused hl hr hp he =>
    intro _ img hi
    rw [registerCalls_append, registerCalls_reads env fs _ _ _ hr] at hi
    simp only [registerCalls_cons, registerCalls_nil, List.nil_append, List.append_nil,
      List.mem_append, List.mem_singleton, List.not_mem_nil, false_or, or_false] at hi
  | @leaf held address s img0 reads r s3 evs3 hl hr hp he hpar hreg =>
    intro hkey img hi
    rw [registerCalls_append, registerCalls_append, registerCalls_reads env fs _ _ _ hr,
      (registerAndRelease_calls env _ _ _ _ _ hreg).1] at hi
    simp only [registerCalls_cons, registerCalls_nil, List.nil_append, List.append_nil,
      List.mem_append, List.mem_singleton, List.not_mem_nil, false_or, or_false] at hi
    subst hi
    rw [readStaged_name env fs address img reads hnames hkey hr]
    exact hl
  | @parentOk held address s img0 reads s2 evs r s3 evs3 hl hr hp he hpar hrec hreg ih =>
    intro hkey img hi
    rw [registerCalls_append, registerCalls_append, registerCalls_append,
      registerCalls_reads env fs _ _ _ hr,
      (registerAndRelease_calls env _ _ _ _ _ hreg).1] at hi
    simp only [registerCalls_cons, registerCalls_nil, List.nil_append, List.append_nil,
      List.mem_append, List.mem_singleton, List.not_mem_nil, false_or, or_false] at hi
    rcases hi with hi | rfl
    · exact ih (parent_clean env fs hclean address img0 reads hr s hpar) img hi
    · rw [readStaged_name env fs address img reads hnames hkey hr]
      exact hl
  | @parentErr held address s img0 reads s2 evs e hl hr hp he hpar hrec ih =>
    intro _ img hi
    rw [registerCalls_append, registerCalls_append, registerCalls_append,
      registerCalls_reads env fs _ _ _ hr] at hi
    simp only [registerCalls_cons, registerCalls_nil, List.nil_append, List.append_nil,
      List.mem_append, List.mem_singleton, List.not_mem_nil, false_or, or_false] at hi
    exact ih (parent_clean env fs hclean address img0 reads hr s hpar) img hi
  | @parentBlocked held address s img0 reads s2 evs hl hr hp he hpar hrec ih =>
    intro _ img hi
    rw [registerCalls_append, registerCalls_append,
      registerCalls_reads env fs _ _ _ hr] at hi
    simp only [registerCalls_cons, registerCalls_nil, List.nil_append, List.append_nil,
      List.mem_append, List.mem_singleton, List.not_mem_nil, false_or, or_false] at hi
    exact ih (parent_clean env fs hclean address img0 reads hr s hpar) img hi

/-- The loop over top-level entries hands to `Register` no record whose ID was
resident when the loop started. -/
theorem runsAll_fresh (env : Env) (fs : Staging) (hnames : namesAreIDs env fs = true)
    (hclean : parentsAreClean env fs = true)
    (ds : List DirEntry) (s t : TagStore) (r : Outcome) (evs : List Event)
    (h : RunsAll env fs ds s r t evs) :
    (∀ d ∈ ds, isPlain d.name = true) →
      ∀ img ∈ registerCalls evs, Exists s img.ID = false := by
  induction h with
  | done => intro _ img hi; simp [registerCalls_nil] at hi
  | skip hd hrest ih =>
    intro hplain
    exact ih (fun d hd => hplain d (List.mem_cons_of_mem _ hd))
  | stop hd hrun hr =>
    intro hplain
    exact runs_fresh env fs hnames hclean _ _ _ _ _ _ hrun
      (isClean_plain env _ (hplain _ (List.mem_cons_self _ _)))
  | next hd hrun hrest ih =>
    intro hplain img hi
    rw [registerCalls_append, List.mem_append] at hi
    rcases hi with hi | hi
    · exact runs_fresh env fs hnames hclean _ _ _ _ _ _ hrun
        (isClean_plain env _ (hplain _ (List.mem_cons_self _ _))) img hi
    · exact lookup_false_of_later _ _ _ img.ID (runs_frame env fs _ _ _ _ _ _ hrun).2.2
        (ih (fun d hd => hplain d (List.mem_cons_of_mem _ hd)) img hi)

/-! ## No re-registration -/

/-- C2 (amended): for every bundle in which every staged directory, at any depth
below `repo`, is named by the ID its metadata carries and every `Parent` is
written as a clean path below `repo` (one that `filepath.Join` leaves as it is,
such as an ID), `Load` produces its result and issues no `Register` call whose
image record carries an ID that was resident in the graph when `Load` started. -/
theorem no_reregistration (env : Env) (inTar : Archive) (s : TagStore)
    (hnames : namesAreIDs env inTar.content = true)
    (hclean : parentsAreClean env inTar.content = true) :
    ∃ r t evs, Load env inTar s = some (r, t, evs) ∧
      ∀ img ∈ registerCalls evs, Exists s img.ID = false := by
  have hsome := load_isSome env inTar s
  cases hld : Load env inTar s with
  | none => rw [hld] at hsome; cases hsome
  | some x =>
    obtain ⟨r, t, evs⟩ := x
    refine ⟨r, t, evs, rfl, ?_⟩
    have key : ∀ (fs : Staging) (evs1 : List Event) (r1 : Outcome) (s1 : TagStore),
        Untar inTar (excludesOf s) = .ok fs → RunsAll env fs (topLevel fs) s r1 s1 evs1 →
        ∀ img ∈ registerCalls evs1, Exists s img.ID = false := by
      intro fs evs1 r1 s1 hfs hall
      exact runsAll_fresh env fs (namesAreIDs_untar env inTar _ fs hnames hfs)
        (parentsAreClean_untar env inTar _ fs hclean hfs) _ _ _ _ _ hall (topLevel_plain fs)
    rcases load_cases env inTar s t r evs hld with ⟨e, -, -, h | h⟩ | ⟨fs, hfs, h⟩
    · rw [h]; intro img hi; simp [registerCalls_nil] at hi
    · rw [h]; intro img hi; simp [registerCalls_cons, registerCalls_nil] at hi
    · rcases h with ⟨-, hall, hevs⟩ | ⟨s1, evs1, evs2, hall, hrep, hevs⟩
      · intro img hi
        rw [hevs, registerCalls_cons] at hi
        exact key fs _ _ _ hfs hall img (by simpa using hi)
      · intro img hi
        rw [hevs, registerCalls_cons, registerCalls_append,
          (loadRepositories_frame env fs _ _ _ _ hrep).2.2.1] at hi
        exact key fs _ _ _ hfs hall img (by simpa using hi)

/-- Witness of C2: the chain bundle loaded into a store that holds `a`. -/
theorem no_reregistration_witness :
    namesAreIDs sampleEnv chainBundle.content = true ∧
      parentsAreClean sampleEnv chainBundle.content = true ∧
      ∃ r t evs, Load sampleEnv chainBundle storeWithA = some (r, t, evs) ∧
        ∀ img ∈ registerCalls evs, Exists storeWithA img.ID = false :=
  ⟨by decide, by decide,
    no_reregistration sampleEnv chainBundle storeWithA (by decide) (by decide)⟩

/-- Counterexample to C2 as stated: image `a` is resident when `Load` starts.
First bundle: the metadata of `a` is staged under the directory name `x`, and
`Load` issues a `Register` call for the record with ID `a`.  Second bundle: the
image `b` names as parent the path `b/a`, the directory `a` inside its own
directory, which carries the metadata of `a`; the extractor excludes only `a`,
the parent `b/a` is not resident, and `Load` reads `b/a` and issues a `Register`
call for the record with ID `a`.  Third bundle: every staged directory is named
by its ID, and `b` names as parent the path `../../x`, which leads out of the
staging area to a directory that holds the metadata of `a`; `Load` reads it and
issues a `Register` call for the record with ID `a`. -/
theorem reregistration_under_other_name :
    Exists storeWithA "a" = true ∧
      Load sampleEnv renamedBundle storeWithA =
        some (.err ⟨"already exists"⟩, storeWithA,
          [.untar ["a"], .readJSON "x", .openLayer "x", .poolAdd "layer:a" true,
            .register ⟨"a", ""⟩ (some ⟨"already exists"⟩), .poolRemove "layer:a"]) ∧
      registerCalls [.untar ["a"], .readJSON "x", .openLayer "x", .poolAdd "layer:a" true,
        .register ⟨"a", ""⟩ (some ⟨"already exists"⟩), .poolRemove "layer:a"] =
          [⟨"a", ""⟩] ∧
      Load sampleEnv nestedBundle storeWithA =
        some (.err ⟨"already exists"⟩, storeWithA,
          [.untar ["a"], .readJSON "b", .openLayer "b", .poolAdd "layer:b" true,
            .recurse "b/a", .readJSON "b/a", .openLayer "b/a", .poolAdd "layer:a" true,
            .register ⟨"a", ""⟩ (some ⟨"already exists"⟩), .poolRemove "layer:a",
            .poolRemove "layer:b"]) ∧
      registerCalls [.untar ["a"], .readJSON "b", .openLayer "b", .poolAdd "layer:b" true,
        .recurse "b/a", .readJSON "b/a", .openLayer "b/a", .poolAdd "layer:a" true,
        .register ⟨"a", ""⟩ (some ⟨"already exists"⟩), .poolRemove "layer:a",
        .poolRemove "layer:b"] = [⟨"a", ""⟩] ∧
      namesAreIDs sampleEnv traversalBundle.content = true ∧
      Load sampleEnv traversalBundle storeWithA =
        some (.err ⟨"already exists"⟩, storeWithA,
          [.untar ["a"], .readJSON "b", .openLayer "b", .poolAdd "layer:b" true,
            .recurse "../../x", .readJSON "../../x", .openLayer "../../x",
            .poolAdd "layer:a" true,
            .register ⟨"a", ""⟩ (some ⟨"already exists"⟩), .poolRemove "layer:a",
            .poolRemove "layer:b"]) ∧
      registerCalls [.untar ["a"], .readJSON "b", .openLayer "b", .poolAdd "layer:b" true,
        .recurse "../../x", .readJSON "../../x", .openLayer "../../x",
        .poolAdd "layer:a" true,
        .register ⟨"a", ""⟩ (some ⟨"already exists"⟩), .poolRemove "layer:a",
        .poolRemove "layer:b"] = [⟨"a", ""⟩] := by
  decide

/-! ## Invalid identifiers -/

theorem readStaged_invalid (env : Env) (fs : Staging) (name : String) (d : DirEntry)
    (b : String) (img : Image) (e : Error) (hdir : fs.dir env name = some d)
    (hjson : d.json = .ok b) (hdec : env.NewImgJSON b = .ok img)
    (hbad : env.ValidateID img.ID = some e) :
    ∃ e1 reads, readStaged env fs name = (.error e1, reads) := by
  unfold readStaged ReadFile Open
  simp only [hdir, hjson]
  cases hy : d.layer with
  | error e2 => exact ⟨_, _, rfl⟩
  | ok y =>
    simp only [hdec, hbad]
    exact ⟨_, _, rfl⟩

/-- The loop does not succeed over a directory whose staged files are rejected
and whose name no validated identifier equals. -/
theorem runsAll_rejected (env : Env) (fs : Staging) (name : String) (e1 : Error)
    (reads1 : List Event) (hrej : readStaged env fs name = (.error e1, reads1))
    (hinv : ∀ id, env.ValidateID id = none → id ≠ name)
    (ds : List DirEntry) (s t : TagStore) (r : Outcome) (evs : List Event)
    (h : RunsAll env fs ds s r t evs) :
    (∃ d ∈ ds, d.isDir = true ∧ d.name = name) → Exists s name = false → r ≠ .ok := by
  induction h with
  | done => rintro ⟨d, hd, -⟩; cases hd
  | @skip d ds s r t evs hd hrest ih =>
    rintro ⟨d1, hd1, hdir, hname⟩ hnew
    rcases List.mem_cons.mp hd1 with rfl | hd1
    · rw [hd] at hdir; cases hdir
    · exact ih ⟨d1, hd1, hdir, hname⟩ hnew
  | stop hd hrun hr => intro _ _; exact hr
  | @next d ds s s1 evs r t evs2 hd hrun hrest ih =>
    rintro ⟨d1, hd1, hdir, hname⟩ hnew
    have hnew1 : Exists s1 name = false := by
      cases hex : Exists s1 name with
      | false => rfl
      | true =>
        exfalso
        unfold Exists at hex
        rw [(runs_frame env fs _ _ _ _ _ _ hrun).2.2] at hex
        rcases anyID_graphAfter_source name evs s.graph hex with h1 | ⟨img, hi, hid⟩
        · unfold Exists at hnew; rw [h1] at hnew; cases hnew
        · obtain ⟨a, reads, hra, -⟩ := runs_registerCalls env fs _ _ _ _ _ _ hrun img hi
          obtain ⟨-, -, -, -, -, hv, -⟩ := readStaged_ok env fs a img reads hra
          exact hinv img.ID hv hid
    by_cases hn : d.name = name
    · exfalso
      rw [hn] at hrun
      cases hrun with
      | known hl => unfold LookupImage at hl; rw [hnew] at hl; cases hl
      | waited hl hr hp hh => rw [hrej] at hr; cases hr
      | leaf hl hr hp he hpar hreg => rw [hrej] at hr; cases hr
      | parentOk hl hr hp he hpar hrec hreg => rw [hrej] at hr; cases hr
    · rcases List.mem_cons.mp hd1 with rfl | hd1
      · exact absurd hname hn
      · exact ih ⟨d1, hd1, hdir, hname⟩ hnew1

/-- C5 (amended): when the bundle stages, in `repo` itself and under a name not
known to the store, an image directory whose metadata carries that name as ID
and the ID fails `ValidateID`, then `Load` does not succeed: it ends with an error
(or, when an earlier directory leaves it waiting on its own pool key, not at
all), no `Register` call is issued for a record whose ID fails `ValidateID`, no
`SetLoad` call is made and the tag index is as it was. -/
theorem invalid_identifier_rejected (env : Env) (inTar : Archive) (s : TagStore)
    (name : String) (d : DirEntry) (b : String) (img : Image) (e : Error)
    (hplain : isPlain name = true)
    (hdir : inTar.content.dir env name = some d) (hjson : d.json = .ok b)
    (hdec : env.NewImgJSON b = .ok img) (hbad : env.ValidateID img.ID = some e)
    (hname : img.ID = name) (hnew : Exists s name = false) :
    ∃ r t evs, Load env inTar s = some (r, t, evs) ∧ r ≠ .ok ∧
      (∀ i ∈ registerCalls evs, env.ValidateID i.ID = none) ∧ img ∉ registerCalls evs ∧
      setLoadCalls evs = [] ∧ t.Repositories = s.Repositories := by
  have hsome := load_isSome env inTar s
  cases hld : Load env inTar s with
  | none => rw [hld] at hsome; cases hsome
  | some x =>
    obtain ⟨r, t, evs⟩ := x
    refine ⟨r, t, evs, rfl, ?_⟩
    have hvalid : ∀ (fs : Staging) (evs1 : List Event) (r1 : Outcome) (s1 : TagStore),
        RunsAll env fs (topLevel fs) s r1 s1 evs1 →
        ∀ i ∈ registerCalls evs1, env.ValidateID i.ID = none := by
      intro fs evs1 r1 s1 hall i hi
      obtain ⟨a, reads, h1, -⟩ := runsAll_registerCalls env fs _ _ _ _ _ hall i hi
      exact (readStaged_ok env fs a i reads h1).choose_spec.choose_spec.2.2.2.1
    have hnot : (∀ i ∈ registerCalls evs, env.ValidateID i.ID = none) →
        img ∉ registerCalls evs := by
      intro hv hmem
      have := hv img hmem
      rw [hbad] at this
      cases this
    have hfail : ∀ (fs : Staging) (evs1 : List Event) (r1 : Outcome) (s1 : TagStore),
        Untar inTar (excludesOf s) = .ok fs → RunsAll env fs (topLevel fs) s r1 s1 evs1 →
        r1 ≠ .ok := by
      intro fs evs1 r1 s1 hfs hall
      have hkey : pathKey env name = name := pathKey_plain env name hplain
      have hfree : (excludesOf s).any (fun p => matchesPattern p (pathKey env name)) = false := by
        rw [hkey]; exact excludes_free_plain s name hplain hnew
      have hdir2 : fs.dir env name = some d := by
        rw [dir_untar env inTar _ fs name hfs hfree]; exact hdir
      obtain ⟨e1, reads1, hrej⟩ := readStaged_invalid env fs name d b img e hdir2 hjson hdec hbad
      obtain ⟨hmem, hisdir, hdname⟩ := dir_mem env fs name d hdir2
      rw [hkey] at hdname
      have htop : d ∈ topLevel fs := by
        unfold topLevel
        rw [List.mem_filter, hdname]
        exact ⟨hmem, hplain⟩
      refine runsAll_rejected env fs name e1 reads1 hrej ?_ _ _ _ _ _ hall
        ⟨d, htop, hisdir, hdname⟩ hnew
      intro id hv hid
      rw [hid, ← hname, hbad] at hv
      cases hv
    rcases load_cases env inTar s t r evs hld with ⟨e2, hr, ht, h | h⟩ | ⟨fs, hfs, h⟩
    · subst h; subst ht; subst hr
      exact ⟨by simp, by intro i hi; simp [registerCalls_nil] at hi,
        by simp [registerCalls_nil], rfl, rfl⟩
    · subst h; subst ht; subst hr
      exact ⟨by simp, by intro i hi; simp [registerCalls_cons, registerCalls_nil] at hi,
        by simp [registerCalls_cons, registerCalls_nil], rfl, rfl⟩
    · rcases h with ⟨hr, hall, hevs⟩ | ⟨s1, evs1, evs2, hall, hrep, hevs⟩
      · have hv : ∀ i ∈ registerCalls evs, env.ValidateID i.ID = none := by
          intro i hi
          rw [hevs, registerCalls_cons] at hi
          exact hvalid fs _ _ _ hall i (by simpa using hi)
        refine ⟨hr, hv, hnot hv, ?_, (runsAll_frame env fs _ _ _ _ _ hall).1⟩
        rw [hevs]
        show setLoadCalls ([Event.untar (excludesOf s)] ++ evs.tail) = []
        rw [setLoadCalls_append, (runsAll_frame env fs _ _ _ _ _ hall).2.2.2.1]; rfl
      · exact absurd rfl (hfail fs _ _ _ hfs hall)

/-- Witness of C5: a bundle with a root image and a directory named by its
invalid identifier. -/
theorem invalid_identifier_rejected_witness :
    isPlain "b b" = true ∧
      invalidBundle.content.dir sampleEnv "b b" = some (imageDir "b b" "b b" "a") ∧
      sampleEnv.ValidateID "b b" = some ⟨"Invalid id"⟩ ∧ Exists emptyStore "b b" = false ∧
      ∃ r t evs, Load sampleEnv invalidBundle emptyStore = some (r, t, evs) ∧ r ≠ .ok ∧
        (∀ i ∈ registerCalls evs, sampleEnv.ValidateID i.ID = none) ∧
        (⟨"b b", "a"⟩ : Image) ∉ registerCalls evs ∧
        setLoadCalls evs = [] ∧ t.Repositories = emptyStore.Repositories :=
  ⟨by decide, rfl, by decide, by decide,
    invalid_identifier_rejected sampleEnv invalidBundle emptyStore "b b"
      (imageDir "b b" "b b" "a") "b b|a" ⟨"b b", "a"⟩ ⟨"Invalid id"⟩ (by decide) rfl
      rfl rfl (by decide) rfl (by decide)⟩

/-- Counterexample to C5 as stated.  First bundle: the directory `b` is not known
to the store and its metadata ID `z z` fails `ValidateID`, but the directory `a`
carries the metadata of an image `b`; after that image is registered the lookup
of `b` succeeds, the invalid directory is never read, `Load` returns success and
binds the tag.  Second bundle: the directory before the invalid one names itself
as parent, and `Load` does not return at all. -/
theorem invalid_identifier_not_rejected :
    Exists emptyStore "b" = false ∧ sampleEnv.ValidateID "z z" = some ⟨"Invalid id"⟩ ∧
      Load sampleEnv shadowedInvalidBundle emptyStore =
        some (.ok, ⟨[⟨"b", ""⟩], [], [(("app", "v1"), "b")]⟩,
          [.untar [], .readJSON "a", .openLayer "a", .poolAdd "layer:b" true,
            .register ⟨"b", ""⟩ none, .poolRemove "layer:b",
            .setLoad "app" "v1" "b" true none]) ∧
      sampleEnv.ValidateID "b b" = some ⟨"Invalid id"⟩ ∧
      Load sampleEnv blockedInvalidBundle emptyStore =
        some (.blocked, ⟨[], ["layer:a"], []⟩,
          [.untar [], .readJSON "a", .openLayer "a", .poolAdd "layer:a" true, .recurse "a",
            .readJSON "a", .openLayer "a", .poolAdd "layer:a" false, .wait "layer:a"]) := by
  decide

/-! ## Parents before children -/

theorem parentsFirst_append (a b : List Event) :
    ∀ g : List Image,
      parentsFirst g (a ++ b) = (parentsFirst g a && parentsFirst (graphAfter g a) b) := by
  induction a with
  | nil => intro g; simp [parentsFirst, graphAfter]
  | cons ev evs ih =>
    intro g
    cases ev with
    | register img err =>
      cases err with
      | none =>
        show ((img.Parent == "" || g.any (fun o => o.ID == img.Parent)) &&
          parentsFirst (insertImage g img) (evs ++ b)) = _
        rw [ih, ← Bool.and_assoc]; rfl
      | some e =>
        show ((img.Parent == "" || g.any (fun o => o.ID == img.Parent)) &&
          parentsFirst g (evs ++ b)) = _
        rw [ih, ← Bool.and_assoc]; rfl
    | _ => exact ih _

theorem parentsFirst_of_no_register (evs : List Event) :
    ∀ g : List Image, registerCalls evs = [] → parentsFirst g evs = true ∧ graphAfter g evs = g := by
  induction evs with
  | nil => intro g _; exact ⟨rfl, rfl⟩
  | cons ev evs ih =>
    intro g h
    rw [registerCalls_cons] at h
    cases ev with
    | register img err => simp at h
    | _ => exact ih g (by simpa using h)

theorem parentsFirst_reads (env : Env) (fs : Staging) (address : String)
    (res : Except Error Image) (reads : List Event) (g : List Image)
    (h : readStaged env fs address = (res, reads)) : parentsFirst g reads = true :=
  (parentsFirst_of_no_register reads g (registerCalls_reads env fs address res reads h)).1

theorem parentsResident_congr (s t : TagStore) (h : t.graph = s.graph) :
    parentsResident t = parentsResident s := by
  unfold parentsResident Exists
  rw [h]

theorem exists_congr (s t : TagStore) (h : t.graph = s.graph) (id : String) :
    Exists t id = Exists s id := by
  unfold Exists
  rw [h]

/-- Storing a record whose parent is resident keeps every parent resident. -/
theorem parentsResident_insert (s t : TagStore) (img : Image)
    (hs : parentsResident s = true)
    (hp : (img.Parent == "" || Exists s img.Parent) = true)
    (ht : t.graph = insertImage s.graph img) : parentsResident t = true := by
  unfold parentsResident at hs ⊢
  unfold Exists at hs hp ⊢
  rw [ht, List.all_eq_true]
  rw [List.all_eq_true] at hs
  intro o ho
  rw [anyID_insertImage]
  unfold insertImage at ho
  rcases List.mem_cons.mp ho with rfl | ho
  · rcases Bool.or_eq_true _ _ |>.mp hp with h | h
    · rw [h]; rfl
    · rw [h]; simp
  · have := hs o (List.mem_filter.mp ho).1
    rcases Bool.or_eq_true _ _ |>.mp this with h | h
    · rw [h]; rfl
    · rw [h]; simp

/-- What `registerAndRelease` does to the parent order, for a record whose parent
is resident or empty. -/
theorem registerAndRelease_topological (env : Env) (img : Image) (s t : TagStore)
    (r : Outcome) (evs : List Event)
    (hs : parentsResident s = true)
    (hp : (img.Parent == "" || Exists s img.Parent) = true)
    (h : registerAndRelease env img s = (r, t, evs)) :
    parentsResident t = true ∧ (r = .ok → Exists t img.ID = true) ∧
      parentsFirst s.graph evs = true := by
  obtain ⟨-, -, -, -, hev⟩ := registerAndRelease_frame env img s t r evs h
  have hp2 : (img.Parent == "" || s.graph.any (fun o => o.ID == img.Parent)) = true := hp
  rcases hev with ⟨-, hg, rfl⟩ | ⟨e, rfl, hg, rfl⟩
  · refine ⟨parentsResident_insert s t img hs hp hg, fun _ => ?_, ?_⟩
    · unfold Exists
      rw [hg, anyID_insertImage]
      simp
    · simp only [parentsFirst, hp2, Bool.true_and]
  · refine ⟨(parentsResident_congr s t hg).trans hs, (fun hc => by cases hc), ?_⟩
    simp only [parentsFirst, hp2, Bool.true_and]

theorem parent_ready_of_not (img : Image) (s : TagStore)
    (h : (img.Parent != "" && !(Exists s img.Parent)) = false) :
    (img.Parent == "" || Exists s img.Parent) = true := by
  by_cases hp : img.Parent = ""
  · simp [hp]
  · cases he : Exists s img.Parent with
    | true => simp
    | false => simp [hp, he] at h

/-- In a run whose pool holds no key of another worker, whose staged directories
are named by their metadata IDs and whose staged parents are clean paths, on an
address that is a clean path: every `Register` call is made with the parent
resident, every parent stays resident, and success means that the address is
resident. -/
theorem runs_topological (env : Env) (fs : Staging) (hnames : namesAreIDs env fs = true)
    (hclean : parentsAreClean env fs = true) (held : List String) (address : String)
    (s t : TagStore) (r : Outcome) (evs : List Event) (h : Runs env fs held address s r t evs) :
    isClean env address = true → (∀ k ∈ s.pullingPool, k ∈ held) →
      parentsResident s = true →
      parentsResident t = true ∧ (r = .ok → Exists t address = true) ∧
        parentsFirst s.graph evs = true := by
  induction h with
  | known hl => intro _ _ hs; exact ⟨hs, fun _ => hl, rfl⟩
  | unreadable hl hr =>
    intro _ _ hs
    exact ⟨hs, (fun hc => by cases hc), parentsFirst_reads env fs _ _ _ _ hr⟩
  | selfWait hl hr hp hh =>
    intro _ _ hs
    refine ⟨hs, (fun hc => by cases hc), ?_⟩
    rw [parentsFirst_append, parentsFirst_reads env fs _ _ _ _ hr]; rfl
  | waited hl hr hp hh => intro _ hsub _; exact absurd (hsub _ hp) hh
  | refused hl hr hp he =>
    intro _ _ hs
    refine ⟨hs, (fun hc => by cases hc), ?_⟩
    rw [parentsFirst_append, parentsFirst_reads env fs _ _ _ _ hr]; rfl
  | @leaf held address s img reads r s3 evs3 hl hr hp he hpar hreg =>
    intro hkey _ hs
    obtain ⟨t1, t2, t3⟩ := registerAndRelease_topological env img (grantKey s (layerKey img.ID))
      s3 r evs3 hs (parent_ready_of_not img s hpar) hreg
    have hid : img.ID = address := readStaged_name env fs address img reads hnames hkey hr
    refine ⟨t1, fun hok => ?_, ?_⟩
    · rw [← hid]; exact t2 hok
    · rw [List.append_assoc, parentsFirst_append, parentsFirst_reads env fs _ _ _ _ hr,
        graphAfter_reads env fs _ _ _ _ hr, parentsFirst_append]
      exact (by simpa [parentsFirst, graphAfter] using t3)
  | @parentOk held address s img reads s2 evs r s3 evs3 hl hr hp he hpar hrec hreg ih =>
    intro hkey hsub hs
    obtain ⟨i1, i2, i3⟩ := ih (parent_clean env fs hclean address img reads hr s hpar)
      (held_grant s held _ hsub) hs
    obtain ⟨-, -, hg2⟩ := runs_frame env fs _ _ _ _ _ _ hrec
    obtain ⟨t1, t2, t3⟩ := registerAndRelease_topological env img s2 s3 r evs3
      i1 (by rw [i2 rfl]; simp) hreg
    have hid : img.ID = address := readStaged_name env fs address img reads hnames hkey hr
    refine ⟨t1, fun hok => ?_, ?_⟩
    · rw [← hid]; exact t2 hok
    · rw [List.append_assoc, List.append_assoc, parentsFirst_append,
        parentsFirst_reads env fs _ _ _ _ hr, graphAfter_reads env fs _ _ _ _ hr,
        parentsFirst_append, parentsFirst_append]
      have i3' : parentsFirst s.graph evs = true := i3
      have hg2' : graphAfter s.graph evs = s2.graph := hg2.symm
      simp only [parentsFirst, graphAfter, i3', hg2', t3, Bool.and_self]
  | @parentErr held address s img reads s2 evs e hl hr hp he hpar hrec ih =>
    intro _ hsub hs
    obtain ⟨i1, i2, i3⟩ := ih (parent_clean env fs hclean address img reads hr s hpar)
      (held_grant s held _ hsub) hs
    refine ⟨(parentsResident_congr s2 _ rfl).trans i1, (fun hc => by cases hc), ?_⟩
    rw [List.append_assoc, List.append_assoc, parentsFirst_append,
      parentsFirst_reads env fs _ _ _ _ hr, graphAfter_reads env fs _ _ _ _ hr,
      parentsFirst_append, parentsFirst_append]
    have i3' : parentsFirst s.graph evs = true := i3
    simp only [parentsFirst, graphAfter, i3', Bool.and_self]
  | @parentBlocked held address s img reads s2 evs hl hr hp he hpar hrec ih =>
    intro _ hsub hs
    obtain ⟨i1, i2, i3⟩ := ih (parent_clean env fs hclean address img reads hr s hpar)
      (held_grant s held _ hsub) hs
    refine ⟨i1, (fun hc => by cases hc), ?_⟩
    rw [List.append_assoc, parentsFirst_append,
      parentsFirst_reads env fs _ _ _ _ hr, graphAfter_reads env fs _ _ _ _ hr,
      parentsFirst_append]
    have i3' : parentsFirst s.graph evs = true := i3
    simp only [parentsFirst, graphAfter, i3', Bool.and_self]

theorem runsAll_topological (env : Env) (fs : Staging) (hnames : namesAreIDs env fs = true)
    (hclean : parentsAreClean env fs = true)
    (ds : List DirEntry) (s t : TagStore) (r : Outcome) (evs : List Event)
    (h : RunsAll env fs ds s r t evs) :
    (∀ d ∈ ds, isPlain d.name = true) → s.pullingPool = [] → parentsResident s = true →
      parentsResident t = true ∧ parentsFirst s.graph evs = true := by
  induction h with
  | done => intro _ _ hs; exact ⟨hs, rfl⟩
  | skip hd hrest ih =>
    intro hplain
    exact ih (fun d hd => hplain d (List.mem_cons_of_mem _ hd))
  | stop hd hrun hr =>
    intro hplain hpool hs
    obtain ⟨t1, -, t3⟩ := runs_topological env fs hnames hclean _ _ _ _ _ _ hrun
      (isClean_plain env _ (hplain _ (List.mem_cons_self _ _)))
      (by rw [hpool]; intro k hk; cases hk) hs
    exact ⟨t1, t3⟩
  | next hd hrun hrest ih =>
    intro hplain hpool hs
    obtain ⟨t1, -, t3⟩ := runs_topological env fs hnames hclean _ _ _ _ _ _ hrun
      (isClean_plain env _ (hplain _ (List.mem_cons_self _ _)))
      (by rw [hpool]; intro k hk; cases hk) hs
    obtain ⟨-, f2, f3⟩ := runs_frame env fs _ _ _ _ _ _ hrun
    obtain ⟨i1, i2⟩ := ih (fun d hd => hplain d (List.mem_cons_of_mem _ hd))
      (by rw [f2 (by simp), hpool]; rfl) t1
    refine ⟨i1, ?_⟩
    rw [parentsFirst_append, t3, ← f3, i2]; rfl

/-- Where every parent is resident, every ancestor of a resident image is. -/
theorem ancestors_resident (s : TagStore) (hs : parentsResident s = true) (a x : String)
    (h : Ancestor s.graph a x) : Exists s a = true := by
  induction h with
  | @parent img hmem hne =>
    unfold parentsResident at hs
    rw [List.all_eq_true] at hs
    have := hs img hmem
    rcases Bool.or_eq_true _ _ |>.mp this with h1 | h1
    · exact absurd (by simpa using h1) hne
    · exact h1
  | step hab hbc ih1 ih2 => exact ih1

/-- C1 (amended): for every initial graph in which every resident image's
non-empty parent is resident, with no pool key held by another worker when `Load`
starts, and for every bundle in which every staged directory is named by the ID
its metadata carries and every staged `Parent` is written as a clean path (one
that `filepath.Join` leaves as it is, such as an ID), `Load` produces its result
and, however it ends, every resident image has its parent and all its ancestors
resident; equivalently, every `Register` call for an image with a non-empty
`Parent` is made at a moment when that parent is in the graph. -/
theorem topological_visibility (env : Env) (inTar : Archive) (s : TagStore)
    (hclosed : parentsResident s = true) (hpool : s.pullingPool = [])
    (hnames : namesAreIDs env inTar.content = true)
    (hclean : parentsAreClean env inTar.content = true) :
    ∃ r t evs, Load env inTar s = some (r, t, evs) ∧ parentsResident t = true ∧
      (∀ a x, Exists t x = true → Ancestor t.graph a x → Exists t a = true) ∧
      parentsFirst s.graph evs = true := by
  have hsome := load_isSome env inTar s
  cases hld : Load env inTar s with
  | none => rw [hld] at hsome; cases hsome
  | some x =>
    obtain ⟨r, t, evs⟩ := x
    refine ⟨r, t, evs, rfl, ?_⟩
    have hmain : parentsResident t = true ∧ parentsFirst s.graph evs = true := by
      rcases load_cases env inTar s t r evs hld with ⟨e, -, ht, h | h⟩ | ⟨fs, hfs, h⟩
      · subst h; subst ht; exact ⟨hclosed, rfl⟩
      · subst h; subst ht; exact ⟨hclosed, rfl⟩
      · have hn := namesAreIDs_untar env inTar _ fs hnames hfs
        have hc := parentsAreClean_untar env inTar _ fs hclean hfs
        rcases h with ⟨-, hall, hevs⟩ | ⟨s1, evs1, evs2, hall, hrep, hevs⟩
        · obtain ⟨t1, t2⟩ := runsAll_topological env fs hn hc _ _ _ _ _ hall
            (topLevel_plain fs) hpool hclosed
          refine ⟨t1, ?_⟩
          rw [hevs]
          exact t2
        · obtain ⟨t1, t2⟩ := runsAll_topological env fs hn hc _ _ _ _ _ hall
            (topLevel_plain fs) hpool hclosed
          obtain ⟨g1, -, g3, -, -⟩ := loadRepositories_frame env fs _ _ _ _ hrep
          refine ⟨(parentsResident_congr s1 t g1).trans t1, ?_⟩
          rw [hevs]
          show parentsFirst s.graph (evs1 ++ evs2) = true
          rw [parentsFirst_append, t2, (parentsFirst_of_no_register evs2 _ g3).1]; rfl
    exact ⟨hmain.1, fun a x _ hanc => ancestors_resident t hmain.1 a x hanc, hmain.2⟩

/-- Witness of C1: the chain bundle loaded into the empty store. -/
theorem topological_visibility_witness :
    parentsResident emptyStore = true ∧ emptyStore.pullingPool = [] ∧
      namesAreIDs sampleEnv chainBundle.content = true ∧
      parentsAreClean sampleEnv chainBundle.content = true ∧
      ∃ r t evs, Load sampleEnv chainBundle emptyStore = some (r, t, evs) ∧
        parentsResident t = true ∧
        (∀ a x, Exists t x = true → Ancestor t.graph a x → Exists t a = true) ∧
        parentsFirst emptyStore.graph evs = true :=
  ⟨by decide, rfl, by decide, by decide,
    topological_visibility sampleEnv chainBundle emptyStore (by decide) rfl (by decide)
      (by decide)⟩

/-- Counterexample to C1 as stated.  First bundle: the directory `p` carries the
metadata of an image `q`; the nested call on the parent `p` of `b` registers `q`
and returns success, and `b` is registered while `p` is not in the graph.  Second
run: every directory is named by its ID, but another worker holds the key of `b`;
the nested call on the parent `b` of `a` waits until that worker has released the
key and returns success whatever became of `b`, `a` is registered while `b` is
not in the graph, and `Load` returns the error of the next directory.  Third
bundle: every directory is named by its ID, and `b` names its parent `c` by the
path `./c`; the nested call reads the directory `c`, registers the image `c` and
returns success, `b` is registered while no image `./c` is in the graph, and
`Load` returns success. -/
theorem child_registered_without_parent :
    parentsResident emptyStore = true ∧
      Load sampleEnv mismatchBundle emptyStore =
        some (.err ⟨"already exists"⟩, ⟨[⟨"b", "p"⟩, ⟨"q", ""⟩], [], []⟩,
          [.untar [], .readJSON "b", .openLayer "b", .poolAdd "layer:b" true, .recurse "p",
            .readJSON "p", .openLayer "p", .poolAdd "layer:q" true,
            .register ⟨"q", ""⟩ none, .poolRemove "layer:q",
            .register ⟨"b", "p"⟩ none, .poolRemove "layer:b",
            .readJSON "p", .openLayer "p", .poolAdd "layer:q" true,
            .register ⟨"q", ""⟩ (some ⟨"already exists"⟩), .poolRemove "layer:q"]) ∧
      parentsResident ⟨[⟨"b", "p"⟩, ⟨"q", ""⟩], [], []⟩ = false ∧
      (Load sampleEnv mismatchBundle emptyStore).map
          (fun x => parentsFirst emptyStore.graph x.2.2) = some false ∧
      parentsResident storeWithForeignKey = true ∧
      namesAreIDs sampleEnv childFirstBundle.content = true ∧
      parentsAreClean sampleEnv childFirstBundle.content = true ∧
      Load sampleEnv childFirstBundle storeWithForeignKey =
        some (.err ⟨"invalid character"⟩, ⟨[⟨"a", "b"⟩], [], []⟩,
          [.untar [], .readJSON "a", .openLayer "a", .poolAdd "layer:a" true, .recurse "b",
            .readJSON "b", .openLayer "b", .poolAdd "layer:b" false, .wait "layer:b",
            .register ⟨"a", "b"⟩ none, .poolRemove "layer:a",
            .readJSON "aa", .openLayer "aa"]) ∧
      parentsResident ⟨[⟨"a", "b"⟩], [], []⟩ = false ∧
      (Load sampleEnv childFirstBundle storeWithForeignKey).map
          (fun x => parentsFirst storeWithForeignKey.graph x.2.2) = some false ∧
      namesAreIDs sampleEnv dottedParentBundle.content = true ∧
      Load sampleEnv dottedParentBundle emptyStore =
        some (.ok, ⟨[⟨"b", "./c"⟩, ⟨"c", ""⟩], [], []⟩,
          [.untar [], .readJSON "b", .openLayer "b", .poolAdd "layer:b" true,
            .recurse "./c", .readJSON "./c", .openLayer "./c", .poolAdd "layer:c" true,
            .register ⟨"c", ""⟩ none, .poolRemove "layer:c",
            .register ⟨"b", "./c"⟩ none, .poolRemove "layer:b"]) ∧
      parentsResident ⟨[⟨"b", "./c"⟩, ⟨"c", ""⟩], [], []⟩ = false ∧
      (Load sampleEnv dottedParentBundle emptyStore).map
          (fun x => parentsFirst emptyStore.graph x.2.2) = some false := by
  decide

/-! ## The tag post-condition -/

theorem mem_bindings (repo tag id : String) (tm : List (String × String)) :
    ∀ idx : List (String × List (String × String)),
      (repo, tm) ∈ idx → (tag, id) ∈ tm → ((repo, tag), id) ∈ bindings idx := by
  intro idx
  induction idx with
  | nil => intro h; cases h
  | cons p idx ih =>
    intro h ht
    obtain ⟨repo1, tm1⟩ := p
    simp only [bindings, List.mem_append]
    rcases List.mem_cons.mp h with heq | h
    · left
      simp only [Prod.mk.injEq] at heq
      obtain ⟨rfl, rfl⟩ := heq
      exact List.mem_map.mpr ⟨(tag, id), ht, rfl⟩
    · exact Or.inr (ih h ht)

theorem bindings_key_repo (k : String × String) :
    ∀ idx : List (String × List (String × String)),
      k ∈ (bindings idx).map Prod.fst → k.1 ∈ idx.map Prod.fst := by
  intro idx
  induction idx with
  | nil => intro h; simp [bindings] at h
  | cons p idx ih =>
    intro h
    obtain ⟨repo1, tm1⟩ := p
    simp only [bindings, List.map_append, List.mem_append, List.map_map] at h
    rcases h with h | h
    · obtain ⟨q, -, rfl⟩ := List.mem_map.mp h
      simp
    · exact List.mem_cons_of_mem _ (ih h)

/-- The bindings of a map of maps have pairwise distinct keys. -/
theorem isMap_iff (idx : List (String × List (String × String))) :
    isMap idx = true ↔ (idx.map Prod.fst).Nodup ∧ ∀ p ∈ idx, (p.2.map Prod.fst).Nodup := by
  unfold isMap
  rw [Bool.and_eq_true, decide_eq_true_iff, List.all_eq_true]
  constructor
  · rintro ⟨h1, h2⟩; exact ⟨h1, fun p hp => of_decide_eq_true (h2 p hp)⟩
  · rintro ⟨h1, h2⟩; exact ⟨h1, fun p hp => decide_eq_true (h2 p hp)⟩

theorem bindings_nodup :
    ∀ idx : List (String × List (String × String)),
      isMap idx = true → ((bindings idx).map Prod.fst).Nodup := by
  intro idx
  induction idx with
  | nil => intro _; simp [bindings]
  | cons p idx ih =>
    intro hmap
    obtain ⟨repo1, tm1⟩ := p
    obtain ⟨h1, h2⟩ := (isMap_iff _).mp hmap
    simp only [List.map_cons, List.nodup_cons] at h1
    simp only [bindings, List.map_append, List.map_map]
    rw [List.nodup_append]
    refine ⟨?_, ih ((isMap_iff _).mpr ⟨h1.2, fun q hq => h2 q (List.mem_cons_of_mem _ hq)⟩), ?_⟩
    · have htm := h2 (repo1, tm1) (List.mem_cons_self _ _)
      have hinj : Function.Injective (fun t : String => (repo1, t)) := by
        intro a b hab
        simp only [Prod.mk.injEq, true_and] at hab
        exact hab
      have := List.Nodup.map hinj htm
      rw [List.map_map] at this
      exact this
    · intro k hk1 hk2
      obtain ⟨q, -, rfl⟩ := List.mem_map.mp hk1
      exact h1.1 (bindings_key_repo _ idx hk2)

theorem lastBinding_none (k : String × String) :
    ∀ xs : List ((String × String) × String), k ∉ xs.map Prod.fst → lastBinding xs k = none := by
  intro xs
  induction xs with
  | nil => intro _; rfl
  | cons x xs ih =>
    intro h
    obtain ⟨k1, v⟩ := x
    simp only [List.map_cons, List.mem_cons, not_or] at h
    rw [lastBinding_cons, ih h.2]
    simp [h.1]

theorem lastBinding_of_mem (k : String × String) (v : String) :
    ∀ xs : List ((String × String) × String), (xs.map Prod.fst).Nodup → (k, v) ∈ xs →
      lastBinding xs k = some v := by
  intro xs
  induction xs with
  | nil => intro _ h; cases h
  | cons x xs ih =>
    intro hnd h
    obtain ⟨k1, v1⟩ := x
    simp only [List.map_cons, List.nodup_cons] at hnd
    rw [lastBinding_cons]
    rcases List.mem_cons.mp h with heq | h
    · simp only [Prod.mk.injEq] at heq
      obtain ⟨rfl, rfl⟩ := heq
      rw [lastBinding_none k xs hnd.1]
      simp
    · rw [ih hnd.2 h]

/-- C4: whenever `Load` returns success on a bundle whose `repositories` file
decodes to the index `idx` (a map of maps, listed in whatever order the two
`range` loops visit it), the `SetLoad` calls it made are exactly one call
`SetLoad(repo, tag, ID, force=true, ...)` per binding of the index, so each
(repo, tag, ID) of the index was invoked exactly once, and afterwards the tag
index resolves (repo, tag) to ID. -/
theorem tag_postcondition (env : Env) (inTar : Archive) (s t : TagStore) (evs : List Event)
    (idx : List (String × List (String × String)))
    (hidx : inTar.content.repositories = .index idx) (hmap : isMap idx = true)
    (h : Load env inTar s = some (.ok, t, evs)) :
    setLoadCalls evs = (bindings idx).map (fun b => ⟨b.1.1, b.1.2, b.2, true⟩) ∧
      ∀ repo tagMap tag id, (repo, tagMap) ∈ idx → (tag, id) ∈ tagMap →
        (setLoadCalls evs).count ⟨repo, tag, id, true⟩ = 1 ∧ resolve t repo tag = some id := by
  rcases load_cases env inTar s t .ok evs h with ⟨e, hr, -⟩ | ⟨fs, hfs, h2⟩
  · cases hr
  · rcases h2 with ⟨hr, -⟩ | ⟨s1, evs1, evs2, hall, hrep, hevs⟩
    · exact absurd rfl hr
    · have hrepo : fs.repositories = .index idx := by
        rw [(untar_ok inTar _ fs hfs).2, hidx]
      unfold loadRepositories at hrep
      rw [hrepo] at hrep
      simp only at hrep
      obtain ⟨-, -, -, -, -, -, hspec⟩ := setRepositories_spec env idx s1 .ok t evs2 hrep
      obtain ⟨hcalls, hlook⟩ := hspec rfl
      have hevcalls : setLoadCalls evs = setLoadCalls evs2 := by
        rw [hevs]
        show setLoadCalls ([Event.untar (excludesOf s)] ++ (evs1 ++ evs2)) = _
        rw [setLoadCalls_append, setLoadCalls_append,
          (runsAll_frame env fs _ _ _ _ _ hall).2.2.2.1]
        rfl
      have hnd := bindings_nodup idx hmap
      refine ⟨hevcalls.trans hcalls, ?_⟩
      intro repo tagMap tag id hrepoMem htag
      have hmem := mem_bindings repo tag id tagMap idx hrepoMem htag
      constructor
      · rw [hevcalls, hcalls]
        apply List.count_eq_one_of_mem
        · apply List.Nodup.of_map (fun q : SetLoadArgs => (q.repoName, q.tag))
          rw [List.map_map]
          exact hnd
        · exact List.mem_map.mpr ⟨((repo, tag), id), hmem, rfl⟩
      · unfold resolve
        rw [hlook (repo, tag), lastBinding_of_mem (repo, tag) id _ hnd hmem]

/-- Witness of C4: the chain bundle with the tag `app:v1`, loaded into the empty
store. -/
theorem tag_postcondition_witness :
    chainBundle.content.repositories = .index [("app", [("v1", "b")])] ∧
      isMap [("app", [("v1", "b")])] = true ∧
      Load sampleEnv chainBundle emptyStore =
        some (.ok, ⟨[⟨"b", "a"⟩, ⟨"a", ""⟩], [], [(("app", "v1"), "b")]⟩,
          [.untar [], .readJSON "a", .openLayer "a", .poolAdd "layer:a" true,
            .register ⟨"a", ""⟩ none, .poolRemove "layer:a",
            .readJSON "b", .openLayer "b", .poolAdd "layer:b" true,
            .register ⟨"b", "a"⟩ none, .poolRemove "layer:b",
            .setLoad "app" "v1" "b" true none]) ∧
      resolve ⟨[⟨"b", "a"⟩, ⟨"a", ""⟩], [], [(("app", "v1"), "b")]⟩ "app" "v1" = some "b" :=
  ⟨rfl, by decide, by decide,
    ((tag_postcondition sampleEnv chainBundle emptyStore
      ⟨[⟨"b", "a"⟩, ⟨"a", ""⟩], [], [(("app", "v1"), "b")]⟩
      [.untar [], .readJSON "a", .openLayer "a", .poolAdd "layer:a" true,
        .register ⟨"a", ""⟩ none, .poolRemove "layer:a",
        .readJSON "b", .openLayer "b", .poolAdd "layer:b" true,
        .register ⟨"b", "a"⟩ none, .poolRemove "layer:b",
        .setLoad "app" "v1" "b" true none]
      [("app", [("v1", "b")])] rfl (by decide) (by decide)).2 "app" [("v1", "b")] "v1" "b"
        (by simp) (by simp)).2⟩

/-! ## Loading the same bundle again -/

theorem load_ok_parts (env : Env) (inTar : Archive) (s t : TagStore) (evs : List Event)
    (h : Load env inTar s = some (.ok, t, evs)) :
    env.tempDirErr = none ∧ env.mkdirErr = none ∧ env.mapErr = none ∧
      env.readDirErr = none ∧
      ∃ fs s1 evs1 evs2, Untar inTar (excludesOf s) = .ok fs ∧
        loadDirs env fs (fs.entries.length + 1) (topLevel fs) s = some (.ok, s1, evs1) ∧
        loadRepositories env fs s1 = (.ok, t, evs2) ∧
        evs = .untar (excludesOf s) :: (evs1 ++ evs2) := by
  cases h1 : env.tempDirErr with
  | some e => simp [Load, h1] at h
  | none =>
    cases h2 : env.mkdirErr with
    | some e => simp [Load, h1, h2] at h
    | none =>
      cases h3 : env.mapErr with
      | some e => simp [Load, h1, h2, h3] at h
      | none =>
        cases hfs : Untar inTar (excludesOf s) with
        | error e => simp [Load, h1, h2, h3, hfs] at h
        | ok fs =>
          cases h4 : env.readDirErr with
          | some e => simp [Load, h1, h2, h3, hfs, h4] at h
          | none =>
            refine ⟨rfl, rfl, rfl, rfl, fs, ?_⟩
            simp only [Load, h1, h2, h3, hfs, h4] at h
            cases hld : loadDirs env fs (fs.entries.length + 1) (topLevel fs) s with
            | none => rw [hld] at h; simp at h
            | some x =>
              obtain ⟨r1, s1, evs1⟩ := x
              rw [hld] at h
              cases r1 with
              | ok =>
                simp only at h
                rcases hrep : loadRepositories env fs s1 with ⟨r2, t2, evs2⟩
                rw [hrep] at h
                simp only [Option.some.injEq, Prod.mk.injEq] at h
                obtain ⟨rfl, rfl, rfl⟩ := h
                exact ⟨s1, evs1, evs2, rfl, rfl, hrep, rfl⟩
              | err e => simp at h
              | blocked => simp at h

theorem load_of_parts (env : Env) (inTar : Archive) (s s1 t : TagStore) (fs : Staging)
    (r : Outcome) (evs1 evs2 : List Event)
    (h1 : env.tempDirErr = none) (h2 : env.mkdirErr = none) (h3 : env.mapErr = none)
    (h4 : env.readDirErr = none) (hfs : Untar inTar (excludesOf s) = .ok fs)
    (hld : loadDirs env fs (fs.entries.length + 1) (topLevel fs) s = some (.ok, s1, evs1))
    (hrep : loadRepositories env fs s1 = (r, t, evs2)) :
    Load env inTar s = some (r, t, .untar (excludesOf s) :: (evs1 ++ evs2)) := by
  simp only [Load, h1, h2, h3, hfs, h4, hld, hrep]

theorem untar_again (inTar : Archive) (xs ys : List String) (fs : Staging)
    (h : Untar inTar xs = .ok fs) : Untar inTar ys = .ok (extracted inTar ys) := by
  unfold Untar at h ⊢
  cases hc : inTar.corrupt with
  | some e => rw [hc] at h; cases h
  | none => rfl

/-- A run that succeeds on a clean address, in a pool that holds no key of
another worker, leaves the address resident. -/
theorem runs_ok_resident (env : Env) (fs : Staging) (hnames : namesAreIDs env fs = true)
    (held : List String) (address : String) (s t : TagStore) (r : Outcome) (evs : List Event)
    (h : Runs env fs held address s r t evs) (hok : r = .ok)
    (hkey : isClean env address = true) (hsub : ∀ k ∈ s.pullingPool, k ∈ held) :
    Exists t address = true := by
  cases h with
  | known hl => exact hl
  | unreadable hl hr => cases hok
  | selfWait hl hr hp hh => cases hok
  | waited hl hr hp hh => exact absurd (hsub _ hp) hh
  | refused hl hr hp he => cases hok
  | leaf hl hr hp he hpar hreg =>
    obtain ⟨-, -, -, -, hev⟩ := registerAndRelease_frame env _ _ _ _ _ hreg
    rcases hev with ⟨-, hg, -⟩ | ⟨e, he2, -, -⟩
    · unfold Exists
      rw [hg, anyID_insertImage, readStaged_name env fs address _ _ hnames hkey hr]
      simp
    · rw [he2] at hok; cases hok
  | parentOk hl hr hp he hpar hrec hreg =>
    obtain ⟨-, -, -, -, hev⟩ := registerAndRelease_frame env _ _ _ _ _ hreg
    rcases hev with ⟨-, hg, -⟩ | ⟨e, he2, -, -⟩
    · unfold Exists
      rw [hg, anyID_insertImage, readStaged_name env fs address _ _ hnames hkey hr]
      simp
    · rw [he2] at hok; cases hok
  | parentErr hl hr hp he hpar hrec => cases hok
  | parentBlocked hl hr hp he hpar hrec => cases hok

/-- After a loop that succeeded, started with no key of another worker in the
pool, every directory it went over is resident under its name. -/
theorem runsAll_ok_dirs (env : Env) (fs : Staging) (hnames : namesAreIDs env fs = true)
    (ds : List DirEntry) (s t : TagStore) (r : Outcome) (evs : List Event)
    (h : RunsAll env fs ds s r t evs) :
    (∀ d ∈ ds, isPlain d.name = true) → s.pullingPool = [] → r = .ok →
      ∀ d ∈ ds, d.isDir = true → Exists t d.name = true := by
  induction h with
  | done => intro _ _ _ d hd; cases hd
  | @skip d0 ds s r t evs hd0 hrest ih =>
    intro hplain hpool hok d hd hdir
    rcases List.mem_cons.mp hd with rfl | hd
    · rw [hd0] at hdir; cases hdir
    · exact ih (fun d hd => hplain d (List.mem_cons_of_mem _ hd)) hpool hok d hd hdir
  | stop hd hrun hr => intro _ _ hok; exact absurd hok hr
  | @next d0 ds s s1 evs r t evs2 hd0 hrun hrest ih =>
    intro hplain hpool hok d hd hdir
    obtain ⟨-, f2, -⟩ := runs_frame env fs _ _ _ _ _ _ hrun
    rcases List.mem_cons.mp hd with rfl | hd
    · have h1 := runs_ok_resident env fs hnames _ _ _ _ _ _ hrun rfl
        (isClean_plain env _ (hplain _ (List.mem_cons_self _ _)))
        (by rw [hpool]; intro k hk; cases hk)
      unfold Exists at h1 ⊢
      rw [(runsAll_frame env fs _ _ _ _ _ hrest).2.2.1]
      exact anyID_graphAfter_mono _ _ _ h1
    · exact ih (fun d hd => hplain d (List.mem_cons_of_mem _ hd))
        (by rw [f2 (by simp), hpool]; rfl) hok d hd hdir

/-- The loop over entries none of which is a directory does nothing. -/
theorem loadDirs_no_dirs (env : Env) (fs : Staging) (fuel : Nat) (s : TagStore) :
    ∀ ds : List DirEntry, (∀ d ∈ ds, d.isDir = false) →
      loadDirs env fs fuel ds s = some (.ok, s, []) := by
  intro ds
  induction ds with
  | nil => intro _; rfl
  | cons d ds ih =>
    intro hall
    rw [loadDirs]
    simp only [hall d (List.mem_cons_self _ _), Bool.false_eq_true, if_false]
    exact ih (fun d1 hd1 => hall d1 (List.mem_cons_of_mem _ hd1))

/-- Binding the tags of the same index a second time, in a store with the same
graph, succeeds again and resolves every (repo, tag) as before. -/
theorem loadRepositories_again (env : Env) (fs fs1 : Staging) (s0 s1 : TagStore)
    (evs : List Event) (hrepo : fs1.repositories = fs.repositories)
    (h : loadRepositories env fs s0 = (.ok, s1, evs)) :
    ∃ s2 evs2, loadRepositories env fs1 s1 = (.ok, s2, evs2) ∧ s2.graph = s1.graph ∧
      s2.pullingPool = s1.pullingPool ∧ registerCalls evs2 = [] ∧
      ∀ k, s2.Repositories.lookup k = s1.Repositories.lookup k := by
  unfold loadRepositories at h ⊢
  rw [hrepo]
  cases hf : fs.repositories with
  | notExist => exact ⟨s1, [], rfl, rfl, rfl, rfl, fun _ => rfl⟩
  | openErr e => rw [hf] at h; simp at h
  | badJSON e => rw [hf] at h; simp at h
  | index idx =>
    rw [hf] at h
    simp only at h ⊢
    obtain ⟨a1, -, -, -, -, a6, a7⟩ := setRepositories_spec env idx s0 .ok s1 evs h
    obtain ⟨-, alook⟩ := a7 rfl
    rcases h2 : setRepositories env idx s1 with ⟨r2, s2, evs2⟩
    obtain ⟨b1, b2, b3, -, -, b6, b7⟩ := setRepositories_spec env idx s1 r2 s2 evs2 h2
    have hr2 : r2 = .ok := by
      rw [b6, a1]
      exact a6.mp rfl
    subst hr2
    obtain ⟨-, blook⟩ := b7 rfl
    refine ⟨s2, evs2, rfl, b1, b2, b3, fun k => ?_⟩
    rw [blook k, alook k]
    cases lastBinding (bindings idx) k <;> rfl

/-- C3 (amended): for every store whose pool holds no key of another worker and
every bundle in which every staged directory is named by the ID its metadata
carries and on which `Load` succeeds, running `Load` on the same bundle a second
time succeeds, performs zero `Register` calls, and leaves the graph as it was and
the tag index resolving every (repo, tag) as after the first `Load`. -/
theorem load_idempotent (env : Env) (inTar : Archive) (s s1 : TagStore) (evs1 : List Event)
    (hpool : s.pullingPool = [])
    (hnames : namesAreIDs env inTar.content = true)
    (h : Load env inTar s = some (.ok, s1, evs1)) :
    ∃ s2 evs2, Load env inTar s1 = some (.ok, s2, evs2) ∧ registerCalls evs2 = [] ∧
      s2.graph = s1.graph ∧
      ∀ repo tag, resolve s2 repo tag = resolve s1 repo tag := by
  obtain ⟨e1, e2, e3, e4, fs, sA, evsA, evsB, hfs, hld, hrep, -⟩ :=
    load_ok_parts env inTar s s1 evs1 h
  have hallA := runsAll_of_loadDirs env fs _ _ _ _ _ _ hld
  obtain ⟨-, -, fgraph, -, -⟩ := runsAll_frame env fs _ _ _ _ _ hallA
  obtain ⟨g1, -, -, -, -⟩ := loadRepositories_frame env fs _ _ _ _ hrep
  have hn := namesAreIDs_untar env inTar _ fs hnames hfs
  have hfs2 := untar_again inTar (excludesOf s) (excludesOf s1) fs hfs
  generalize extracted inTar (excludesOf s1) = fs2 at hfs2
  have hgrow : ∀ id, Exists s id = true → Exists s1 id = true := by
    intro id hid
    rw [exists_congr sA s1 g1]
    unfold Exists at hid ⊢
    rw [fgraph]
    exact anyID_graphAfter_mono _ _ _ hid
  have hdirs : ∀ d ∈ topLevel fs2, d.isDir = false := by
    intro d hd
    cases hdir : d.isDir with
    | false => rfl
    | true =>
      exfalso
      unfold topLevel at hd
      obtain ⟨hd2, hplain⟩ := List.mem_filter.mp hd
      have hnew1 := untar_not_resident inTar s1 fs2 hfs2 d hd2 (isOutside_plain d.name hplain)
      rw [(untar_ok inTar _ fs2 hfs2).1, List.mem_filter] at hd2
      have hfree : (excludesOf s).any (fun p => matchesPattern p d.name) = false := by
        rw [List.any_eq_false]
        intro p hp hm
        have hp1 : p ∈ excludesOf s1 := (mem_excludesOf s1 p).mpr
          (hgrow p ((mem_excludesOf s p).mp hp))
        have hany : (excludesOf s1).any (fun p => matchesPattern p d.name) = true := by
          rw [List.any_eq_true]
          exact ⟨p, hp1, hm⟩
        rw [hany, isOutside_plain d.name hplain] at hd2
        exact absurd hd2.2 (by simp)
      have hdfs : d ∈ topLevel fs := by
        unfold topLevel
        rw [List.mem_filter, (untar_ok inTar _ fs hfs).1, List.mem_filter]
        exact ⟨⟨hd2.1, by rw [hfree]; simp⟩, hplain⟩
      have hres := runsAll_ok_dirs env fs hn _ _ _ _ _ hallA (topLevel_plain fs) hpool rfl
        d hdfs hdir
      rw [← exists_congr sA s1 g1] at hres
      rw [hres] at hnew1
      cases hnew1
  have hld2 := loadDirs_no_dirs env fs2 (fs2.entries.length + 1) s1 (topLevel fs2) hdirs
  have hrepo2 : fs2.repositories = fs.repositories := by
    rw [(untar_ok inTar _ fs2 hfs2).2, (untar_ok inTar _ fs hfs).2]
  obtain ⟨s2, evsB2, hrep2, k1, -, k3, k4⟩ :=
    loadRepositories_again env fs fs2 sA s1 evsB hrepo2 hrep
  refine ⟨s2, _, load_of_parts env inTar s1 s1 s2 fs2 .ok [] evsB2 e1 e2 e3 e4 hfs2 hld2 hrep2,
    ?_, k1, fun repo tag => k4 (repo, tag)⟩
  rw [registerCalls_cons, registerCalls_append, k3]
  rfl

/-- Witness of C3: the chain bundle loaded into the empty store, twice. -/
theorem load_idempotent_witness :
    emptyStore.pullingPool = [] ∧
      namesAreIDs sampleEnv chainBundle.content = true ∧
      Load sampleEnv chainBundle emptyStore =
        some (.ok, ⟨[⟨"b", "a"⟩, ⟨"a", ""⟩], [], [(("app", "v1"), "b")]⟩,
          [.untar [], .readJSON "a", .openLayer "a", .poolAdd "layer:a" true,
            .register ⟨"a", ""⟩ none, .poolRemove "layer:a",
            .readJSON "b", .openLayer "b", .poolAdd "layer:b" true,
            .register ⟨"b", "a"⟩ none, .poolRemove "layer:b",
            .setLoad "app" "v1" "b" true none]) ∧
      ∃ s2 evs2, Load sampleEnv chainBundle
          ⟨[⟨"b", "a"⟩, ⟨"a", ""⟩], [], [(("app", "v1"), "b")]⟩ = some (.ok, s2, evs2) ∧
        registerCalls evs2 = [] ∧ s2.graph = [⟨"b", "a"⟩, ⟨"a", ""⟩] ∧
        ∀ repo tag, resolve s2 repo tag =
          resolve ⟨[⟨"b", "a"⟩, ⟨"a", ""⟩], [], [(("app", "v1"), "b")]⟩ repo tag :=
  ⟨rfl, by decide, by decide,
    load_idempotent sampleEnv chainBundle emptyStore
      ⟨[⟨"b", "a"⟩, ⟨"a", ""⟩], [], [(("app", "v1"), "b")]⟩
      [.untar [], .readJSON "a", .openLayer "a", .poolAdd "layer:a" true,
        .register ⟨"a", ""⟩ none, .poolRemove "layer:a",
        .readJSON "b", .openLayer "b", .poolAdd "layer:b" true,
        .register ⟨"b", "a"⟩ none, .poolRemove "layer:b",
        .setLoad "app" "v1" "b" true none] rfl (by decide) (by decide)⟩

/-- Counterexample to C3 as stated.  First bundle: the metadata of image `a` is
staged under the directory name `x`; the first `Load` into the empty store
succeeds and registers `a`; the second `Load` still finds the directory `x`
unknown, issues a `Register` call for `a` again, and returns the error of that
call.  Second run: the directory is named by its ID, but another worker holds the
key of `a` when the first `Load` starts; the first `Load` waits until that worker
has released the key and succeeds without registering `a`; the second `Load`
finds `a` not resident and its key free, and issues a `Register` call that
changes the graph. -/
theorem second_load_registers_again :
    Load sampleEnv renamedBundle emptyStore =
        some (.ok, storeWithA,
          [.untar [], .readJSON "x", .openLayer "x", .poolAdd "layer:a" true,
            .register ⟨"a", ""⟩ none, .poolRemove "layer:a"]) ∧
      Load sampleEnv renamedBundle storeWithA =
        some (.err ⟨"already exists"⟩, storeWithA,
          [.untar ["a"], .readJSON "x", .openLayer "x", .poolAdd "layer:a" true,
            .register ⟨"a", ""⟩ (some ⟨"already exists"⟩), .poolRemove "layer:a"]) ∧
      namesAreIDs sampleEnv rootBundle.content = true ∧
      Load sampleEnv rootBundle storeWithForeignKeyA =
        some (.ok, emptyStore,
          [.untar [], .readJSON "a", .openLayer "a", .poolAdd "layer:a" false,
            .wait "layer:a"]) ∧
      Load sampleEnv rootBundle emptyStore =
        some (.ok, storeWithA,
          [.untar [], .readJSON "a", .openLayer "a", .poolAdd "layer:a" true,
            .register ⟨"a", ""⟩ none, .poolRemove "layer:a"]) ∧
      registerCalls [.untar [], .readJSON "a", .openLayer "a", .poolAdd "layer:a" true,
        .register ⟨"a", ""⟩ none, .poolRemove "layer:a"] = [⟨"a", ""⟩] := by
  decide

end Graph
